import Mathlib

/-!
Verification of the HaveIRidden NYC subway tracker core
(`src/nyc-subway-tracker/src/App.jsx` and the app component embedded in
`src/nyc-subway-tracker/vite.config.js`).

The development shallowly embeds the three cores of the application:

* the rolling-stock classifier `detectModelFromNumber`;
* the cookie-backed ride ledger (`readRidesFromCookie`, `writeRidesToCookie`)
  together with JSON serialisation, percent-encoding and the cookie jar;
* the dataset store (edit operations of `StatsPage`, `loadDatasets`,
  `saveDatasets`).

JavaScript strings are modelled as `List Char`; JavaScript numbers appearing
in the integer-valued data model are modelled as `Int`.  Mutable JavaScript
objects (needed to settle the aliasing behaviour of the dataset edit
operations) are modelled with an explicit heap of entry objects.
-/

/-! ## JavaScript primitives on character lists -/

/-- Whitespace for `String.prototype.trim` / `parseInt` (the common JS
whitespace characters: space, tab, LF, VT, FF, CR, NBSP). -/
def isJsWs (c : Char) : Bool :=
  c = ' ' || c = '\t' || c = '\n' || c = '\x0b' || c = '\x0c' || c = '\r' || c = '\xa0'

/-- ASCII decimal digit. -/
def isDigitCh (c : Char) : Bool :=
  '0' ≤ c && c ≤ '9'

/-- Numeric value of a decimal digit character. -/
def digitVal (c : Char) : Nat := c.toNat - 48

/-- Decimal value of a digit run, most significant first
(`parseInt` / `JSON.parse` accumulate left to right). -/
def digitsVal (ds : List Char) : Nat :=
  ds.foldl (fun acc c => acc * 10 + digitVal c) 0

/-- `parseInt(s, 10)`: skip leading whitespace, read an optional sign, then
the longest run of decimal digits; no digits means `NaN`, modelled as
`none`.  (For enormous inputs the JS result is a lossy float; the claims
under verification only concern integer car numbers, modelled exactly.) -/
def parseIntJS (s : List Char) : Option Int :=
  let s1 := s.dropWhile isJsWs
  let signed : Bool × List Char :=
    match s1 with
    | '-' :: t => (true, t)
    | '+' :: t => (false, t)
    | _ => (false, s1)
  let ds := signed.2.takeWhile isDigitCh
  if ds.isEmpty then none
  else some (if signed.1 then -(digitsVal ds : Int) else (digitsVal ds : Int))

/-! ## The classifier (`detectModelFromNumber`) -/

/-- One rolling-stock table entry:
`{ model, ranges: [[lo, hi], ...], division }`. -/
structure StockEntry where
  model : String
  ranges : List (Int × Int)
  division : String
deriving DecidableEq, Repr

/-- The classifier's result object `{ model, division }`. -/
structure Found where
  model : String
  division : String
deriving DecidableEq, Repr

/-- Inner loop of `detectModelFromNumber`: `for (const [lo, hi] of
entry.ranges) if (n >= lo && n <= hi) return {model, division}`. -/
def rangeLoop (n : Int) (entry : StockEntry) : List (Int × Int) → Option Found
  | [] => none
  | (lo, hi) :: rest =>
    if lo ≤ n && n ≤ hi then some ⟨entry.model, entry.division⟩
    else rangeLoop n entry rest

/-- Outer loop of `detectModelFromNumber`: `for (const entry of
rollingStock) ...`. -/
def entryLoop (n : Int) : List StockEntry → Option Found
  | [] => none
  | entry :: rest =>
    match rangeLoop n entry entry.ranges with
    | some f => some f
    | none => entryLoop n rest

/-- `detectModelFromNumber(numStr, rollingStock)` from `App.jsx` (the copy in
`vite.config.js` is identical): parse the car number, return `null` on `NaN`,
otherwise scan entries and ranges in stored order. -/
def detectModelFromNumber (numStr : List Char) (rollingStock : List StockEntry) :
    Option Found :=
  match parseIntJS numStr with
  | none => none
  | some n => entryLoop n rollingStock

/-- Range containment test used by the source: `n >= lo && n <= hi`. -/
def rangeContains (n : Int) (r : Int × Int) : Bool :=
  r.1 ≤ n && n ≤ r.2

/-- An entry matches `n` when one of its ranges contains `n`. -/
def entryMatches (n : Int) (e : StockEntry) : Bool :=
  e.ranges.any (rangeContains n)

/-- Specification-level description of the classifier (following the spec's
words): the first entry in stored order with a range containing the parsed
number, projected to `{model, division}`; `null` when the number does not
parse or no entry matches. -/
def classifySpec (numStr : List Char) (rollingStock : List StockEntry) :
    Option Found :=
  match parseIntJS numStr with
  | none => none
  | some n =>
    (rollingStock.find? (entryMatches n)).map (fun e => ⟨e.model, e.division⟩)

theorem rangeLoop_eq_any (n : Int) (e : StockEntry) (rs : List (Int × Int)) :
    rangeLoop n e rs =
      cond (rs.any (rangeContains n)) (some ⟨e.model, e.division⟩) none := by
  induction rs with
  | nil => simp [rangeLoop]
  | cons r rest ih =>
    obtain ⟨lo, hi⟩ := r
    simp only [rangeLoop, List.any_cons, rangeContains]
    by_cases h : (decide (lo ≤ n) && decide (n ≤ hi)) = true
    · rw [h]; simp
    · rw [Bool.not_eq_true] at h
      rw [h]; simp [ih]

theorem entryLoop_eq_find (n : Int) (T : List StockEntry) :
    entryLoop n T =
      (T.find? (entryMatches n)).map (fun e => ⟨e.model, e.division⟩) := by
  induction T with
  | nil => simp [entryLoop]
  | cons e rest ih =>
    simp only [entryLoop, rangeLoop_eq_any, List.find?_cons, entryMatches]
    cases h : e.ranges.any (rangeContains n) with
    | true => simp
    | false => simp [ih]

/-- The nested loops of the source compute exactly the first-match
description. -/
theorem detect_eq_classifySpec (s : List Char) (T : List StockEntry) :
    detectModelFromNumber s T = classifySpec s T := by
  unfold detectModelFromNumber classifySpec
  cases parseIntJS s with
  | none => rfl
  | some n => exact entryLoop_eq_find n T

/-- **C1.** For every car-number string and rolling-stock table, the
classifier scans entries in the table's stored order (and each entry's ranges
in stored order) and returns the `{model, division}` of the first entry having
a range that contains the parsed number inclusively on both ends; if no
entry's range contains the number, it returns `null`. -/
theorem claim_C1_first_match (s : List Char) (T : List StockEntry) :
    detectModelFromNumber s T = classifySpec s T :=
  detect_eq_classifySpec s T

/-- **C2.** For every table and every input string that is empty or does not
parse as a base-10 integer (`parseInt` yields `NaN`, modelled as `none`), the
classifier returns `null`; it never returns a model match for such a
string. -/
theorem claim_C2_non_numeric_null (T : List StockEntry) (s : List Char)
    (h : s = [] ∨ parseIntJS s = none) :
    detectModelFromNumber s T = none := by
  have hn : parseIntJS s = none := by
    rcases h with rfl | h
    · rfl
    · exact h
  unfold detectModelFromNumber
  rw [hn]

theorem claim_C2_non_numeric_null_witness :
    (([] : List Char) = [] ∨ parseIntJS [] = none) ∧
      detectModelFromNumber []
        [⟨"R211A", [((4000 : Int), (4399 : Int))], "B"⟩] = none :=
  ⟨Or.inl rfl,
    claim_C2_non_numeric_null [⟨"R211A", [((4000 : Int), (4399 : Int))], "B"⟩]
      [] (Or.inl rfl)⟩

/-! ## Order-independence on disjoint tables (C9) and void ranges (C10) -/

/-- Two inclusive ranges are disjoint when no integer lies in both (stated
arithmetically so that it is decidable). -/
def rangesDisjoint (r₁ r₂ : Int × Int) : Prop :=
  r₂.2 < r₁.1 ∨ r₁.2 < r₂.1 ∨ r₁.2 < r₁.1 ∨ r₂.2 < r₂.1

/-- All ranges of all entries of a table, in stored order. -/
def allRanges (T : List StockEntry) : List (Int × Int) :=
  T.flatMap (·.ranges)

theorem rangesDisjoint_symm {r₁ r₂ : Int × Int}
    (h : rangesDisjoint r₁ r₂) : rangesDisjoint r₂ r₁ := by
  unfold rangesDisjoint at *
  omega

theorem not_contains_of_disjoint {n : Int} {r₁ r₂ : Int × Int}
    (hd : rangesDisjoint r₁ r₂) (h₁ : rangeContains n r₁ = true) :
    rangeContains n r₂ = false := by
  unfold rangesDisjoint at hd
  simp only [rangeContains, Bool.and_eq_true, decide_eq_true_eq] at h₁ ⊢
  rw [Bool.and_eq_false_iff]
  simp only [decide_eq_false_iff_not, not_le]
  omega

theorem find?_eq_head?_filter (p : α → Bool) (l : List α) :
    l.find? p = (l.filter p).head? := by
  induction l with
  | nil => rfl
  | cons a t ih =>
    by_cases h : p a = true
    · simp only [List.find?_cons, List.filter_cons, h, if_true, List.head?_cons]
    · rw [Bool.not_eq_true] at h
      simp only [List.find?_cons, List.filter_cons, h, Bool.false_eq_true,
        if_false]
      exact ih

/-- Under pairwise-disjoint ranges, at most one entry of the table matches a
given number. -/
theorem filter_matches_length_le_one (n : Int) (T : List StockEntry)
    (hd : (allRanges T).Pairwise rangesDisjoint) :
    (T.filter (entryMatches n)).length ≤ 1 := by
  induction T with
  | nil => simp
  | cons e rest ih =>
    rw [allRanges, List.flatMap_cons, List.pairwise_append] at hd
    obtain ⟨-, hrest, hcross⟩ := hd
    by_cases h : entryMatches n e = true
    · have hnone : rest.filter (entryMatches n) = [] := by
        rw [List.filter_eq_nil_iff]
        intro e' he' hm
        obtain ⟨r, hr, hrc⟩ := List.any_eq_true.mp h
        obtain ⟨r', hr', hrc'⟩ := List.any_eq_true.mp hm
        have hr'mem : r' ∈ allRanges rest :=
          List.mem_flatMap.mpr ⟨e', he', hr'⟩
        have := not_contains_of_disjoint (hcross r hr r' hr'mem) hrc
        rw [this] at hrc'
        exact Bool.false_ne_true hrc'
      simp [List.filter_cons, h, hnone]
    · rw [Bool.not_eq_true] at h
      simp only [List.filter_cons, h, Bool.false_eq_true, if_false]
      exact ih hrest

theorem perm_eq_of_length_le_one {l l' : List α} (h : l.Perm l')
    (hl : l.length ≤ 1) : l = l' := by
  match l, hl with
  | [], _ => exact List.Perm.nil_eq h
  | [a], _ => exact (List.perm_singleton.mp h.symm).symm

/-- **C9.** On tables whose ranges are pairwise disjoint across all entries,
the classifier is order-independent: permuting the table does not change any
classification.  (For overlapping ranges the result is the first match in
stored order — that is `claim_C1_first_match`.) -/
theorem claim_C9_disjoint_order_independent (s : List Char)
    (T T' : List StockEntry) (hperm : T'.Perm T)
    (hd : (allRanges T).Pairwise rangesDisjoint) :
    detectModelFromNumber s T' = detectModelFromNumber s T := by
  rw [detect_eq_classifySpec, detect_eq_classifySpec]
  unfold classifySpec
  cases parseIntJS s with
  | none => rfl
  | some n =>
    have hfilter : T'.filter (entryMatches n) = T.filter (entryMatches n) := by
      refine perm_eq_of_length_le_one (hperm.filter _) ?_
      rw [(hperm.filter (entryMatches n)).length_eq]
      exact filter_matches_length_le_one n T hd
    simp only [find?_eq_head?_filter, hfilter]

theorem claim_C9_disjoint_order_independent_witness :
    ([⟨"R62", [((1301 : Int), (1390 : Int))], "A"⟩,
        ⟨"R142", [((6301 : Int), (6899 : Int))], "A"⟩] : List StockEntry).Perm
        [⟨"R142", [((6301 : Int), (6899 : Int))], "A"⟩,
          ⟨"R62", [((1301 : Int), (1390 : Int))], "A"⟩] ∧
      (allRanges [⟨"R142", [((6301 : Int), (6899 : Int))], "A"⟩,
        ⟨"R62", [((1301 : Int), (1390 : Int))], "A"⟩]).Pairwise rangesDisjoint ∧
      detectModelFromNumber ['6', '5', '0', '0']
          [⟨"R62", [((1301 : Int), (1390 : Int))], "A"⟩,
            ⟨"R142", [((6301 : Int), (6899 : Int))], "A"⟩] =
        detectModelFromNumber ['6', '5', '0', '0']
          [⟨"R142", [((6301 : Int), (6899 : Int))], "A"⟩,
            ⟨"R62", [((1301 : Int), (1390 : Int))], "A"⟩] :=
  ⟨by decide, by
    constructor
    · unfold allRanges rangesDisjoint
      refine List.Pairwise.cons ?_ (List.pairwise_singleton _ _)
      intro r hr
      simp only [List.flatMap_cons, List.flatMap_nil] at hr
      simp at hr
      subst hr
      simp
    · exact claim_C9_disjoint_order_independent ['6', '5', '0', '0'] _ _
        (by decide) (by
          unfold allRanges rangesDisjoint
          refine List.Pairwise.cons ?_ (List.pairwise_singleton _ _)
          intro r hr
          simp only [List.flatMap_cons, List.flatMap_nil] at hr
          simp at hr
          subst hr
          simp)⟩

/-- Discard the ranges with `low > high` from an entry; such a range contains
no integer. -/
def dropVoidRanges (e : StockEntry) : StockEntry :=
  { e with ranges := e.ranges.filter (fun r => decide (r.1 ≤ r.2)) }

theorem entryMatches_dropVoidRanges (n : Int) (e : StockEntry) :
    entryMatches n (dropVoidRanges e) = entryMatches n e := by
  unfold entryMatches dropVoidRanges
  simp only [List.any_filter]
  induction e.ranges with
  | nil => rfl
  | cons r t ih =>
    simp only [List.any_cons, ih]
    by_cases h : rangeContains n r = true
    · have : decide (r.1 ≤ r.2) = true := by
        simp only [rangeContains, Bool.and_eq_true, decide_eq_true_eq] at h
        simp only [decide_eq_true_eq]
        omega
      rw [h, this]
      simp
    · rw [Bool.not_eq_true] at h
      rw [h, Bool.and_false]

/-- **C10.** The classifier is a total function (no input makes it throw),
and a range `[low, high]` with `low > high` contains no number and never
produces a match: removing all such void ranges from every entry leaves every
classification unchanged. -/
theorem claim_C10_void_ranges_skipped (s : List Char) (T : List StockEntry) :
    detectModelFromNumber s T =
      detectModelFromNumber s (T.map dropVoidRanges) := by
  rw [detect_eq_classifySpec, detect_eq_classifySpec]
  unfold classifySpec
  cases parseIntJS s with
  | none => rfl
  | some n =>
    have hcomp : (entryMatches n ∘ dropVoidRanges) = entryMatches n := by
      funext e
      exact entryMatches_dropVoidRanges n e
    simp only [List.find?_map, hcomp, Option.map_map]
    rcases T.find? (entryMatches n) with - | e
    · rfl
    · rfl

/-! ## JSON values

`JSON.stringify` / `JSON.parse` are modelled concretely: a JSON value type
(arrays and objects as parallel mutual inductives so that all functions are
plain structural recursions), a serialiser following V8's output format
(insertion-ordered keys, no added whitespace, `\uXXXX` escapes for control
characters), and a recursive-descent parser.  JSON numbers are modelled as
integers: the ride records and datasets under verification contain only
strings and integers.  -/

mutual
inductive JValue where
  | null : JValue
  | bool (b : Bool) : JValue
  | num (n : Int) : JValue
  | str (s : List Char) : JValue
  | arr (elems : JArr) : JValue
  | obj (fields : JObj) : JValue
deriving DecidableEq, Repr
inductive JArr where
  | nil : JArr
  | cons (v : JValue) (rest : JArr) : JArr
deriving DecidableEq, Repr
inductive JObj where
  | nil : JObj
  | cons (k : List Char) (v : JValue) (rest : JObj) : JObj
deriving DecidableEq, Repr
end

/-- Concatenation of JSON arrays (used to state ledger properties). -/
def JArr.append : JArr → JArr → JArr
  | .nil, b => b
  | .cons v rest, b => .cons v (JArr.append rest b)

/-- Every element of a JSON array satisfies a boolean test. -/
def JArr.allB (p : JValue → Bool) : JArr → Bool
  | .nil => true
  | .cons v rest => p v && JArr.allB p rest

/-- Decimal digit character. -/
def digitCh (n : Nat) : Char := Char.ofNat (48 + n)

/-- Decimal digits of `n`, most significant first (`fuel` bounds the
recursion; `natToChars` supplies enough). -/
def natToCharsGo : Nat → Nat → List Char
  | 0, _ => []
  | f + 1, n =>
    if n < 10 then [digitCh n]
    else natToCharsGo f (n / 10) ++ [digitCh (n % 10)]

def natToChars (n : Nat) : List Char := natToCharsGo (n + 1) n

/-- The decimal notation `JSON.stringify` emits for an integer. -/
def intToChars (i : Int) : List Char :=
  if i < 0 then '-' :: natToChars i.natAbs else natToChars i.natAbs

/-- Lower-case hexadecimal digit (V8 prints `\u001f` style escapes). -/
def hexChLower (n : Nat) : Char :=
  if n < 10 then digitCh n else Char.ofNat (87 + n)

/-- How `JSON.stringify` escapes one character inside a string literal. -/
def jsonEscapeChar (c : Char) : List Char :=
  if c = '"' then ['\\', '"']
  else if c = '\\' then ['\\', '\\']
  else if c = '\x08' then ['\\', 'b']
  else if c = '\t' then ['\\', 't']
  else if c = '\n' then ['\\', 'n']
  else if c = '\x0c' then ['\\', 'f']
  else if c = '\r' then ['\\', 'r']
  else if c.toNat < 0x20 then
    ['\\', 'u', '0', '0', hexChLower (c.toNat / 16), hexChLower (c.toNat % 16)]
  else [c]

def jsonEscape (s : List Char) : List Char := s.flatMap jsonEscapeChar

/-- The keyword literals of JSON. -/
def litNull : List Char := ['n', 'u', 'l', 'l']

def litTrue : List Char := ['t', 'r', 'u', 'e']

def litFalse : List Char := ['f', 'a', 'l', 's', 'e']

mutual
/-- `JSON.stringify` (no spacing argument, as in the source). -/
def stringifyV : JValue → List Char
  | .null => litNull
  | .bool true => litTrue
  | .bool false => litFalse
  | .num i => intToChars i
  | .str s => '"' :: (jsonEscape s ++ ['"'])
  | .arr a => '[' :: (stringifyArrElems a ++ [']'])
  | .obj o => '\x7b' :: (stringifyObjFields o ++ ['\x7d'])
def stringifyArrElems : JArr → List Char
  | .nil => []
  | .cons v .nil => stringifyV v
  | .cons v (.cons w rest) =>
    stringifyV v ++ ',' :: stringifyArrElems (.cons w rest)
def stringifyObjFields : JObj → List Char
  | .nil => []
  | .cons k v .nil => '"' :: (jsonEscape k ++ '"' :: ':' :: stringifyV v)
  | .cons k v (.cons k' w rest) =>
    ('"' :: (jsonEscape k ++ '"' :: ':' :: stringifyV v)) ++
      ',' :: stringifyObjFields (.cons k' w rest)
end

/-- Whitespace accepted by `JSON.parse` between tokens. -/
def isJsonWs (c : Char) : Bool :=
  c = ' ' || c = '\t' || c = '\n' || c = '\r'

def skipWs (l : List Char) : List Char := l.dropWhile isJsonWs

/-- Value of a hexadecimal digit character (either case), `none` otherwise. -/
def hexVal (c : Char) : Option Nat :=
  if '0' ≤ c ∧ c ≤ '9' then some (c.toNat - 48)
  else if 'a' ≤ c ∧ c ≤ 'f' then some (c.toNat - 87)
  else if 'A' ≤ c ∧ c ≤ 'F' then some (c.toNat - 55)
  else none

/-- Body of a JSON string literal after the opening quote: content up to the
closing quote, with escape sequences decoded.  Unescaped control characters
and malformed or surrogate `\uXXXX` escapes are parse errors. -/
def parseStringBody : List Char → Option (List Char × List Char)
  | [] => none
  | c :: rest =>
    if c = '"' then some ([], rest)
    else if c = '\\' then
      match rest with
      | [] => none
      | e :: r =>
        if e = '"' then (parseStringBody r).map (fun p => ('"' :: p.1, p.2))
        else if e = '\\' then
          (parseStringBody r).map (fun p => ('\\' :: p.1, p.2))
        else if e = '/' then (parseStringBody r).map (fun p => ('/' :: p.1, p.2))
        else if e = 'b' then
          (parseStringBody r).map (fun p => ('\x08' :: p.1, p.2))
        else if e = 'f' then
          (parseStringBody r).map (fun p => ('\x0c' :: p.1, p.2))
        else if e = 'n' then
          (parseStringBody r).map (fun p => ('\n' :: p.1, p.2))
        else if e = 'r' then
          (parseStringBody r).map (fun p => ('\r' :: p.1, p.2))
        else if e = 't' then
          (parseStringBody r).map (fun p => ('\t' :: p.1, p.2))
        else if e = 'u' then
          match r with
          | x1 :: x2 :: x3 :: x4 :: r2 =>
            (match hexVal x1, hexVal x2, hexVal x3, hexVal x4 with
             | some a, some b, some q, some d =>
               let v := ((a * 16 + b) * 16 + q) * 16 + d
               if v < 0xd800 then
                 (parseStringBody r2).map (fun p => (Char.ofNat v :: p.1, p.2))
               else none
             | _, _, _, _ => none)
          | _ => none
        else none
    else if c.toNat < 0x20 then none
    else (parseStringBody rest).map (fun p => (c :: p.1, p.2))

/-- Longest run of decimal digits and its value; `none` when there is no
digit. -/
def readDigitRun (l : List Char) : Option (Nat × List Char) :=
  let ds := l.takeWhile isDigitCh
  if ds.isEmpty then none else some (digitsVal ds, l.dropWhile isDigitCh)

mutual
/-- Recursive-descent `JSON.parse`, reading one value and returning the rest
of the input.  `fuel` bounds the nesting depth; `jsonParse` supplies enough
for any input.  (Modelling restriction: numbers are parsed as integers, a
fraction or exponent part is rejected rather than read as a float.) -/
def parseVal : Nat → List Char → Option (JValue × List Char)
  | 0, _ => none
  | f + 1, l =>
    match skipWs l with
    | 'n' :: 'u' :: 'l' :: 'l' :: r => some (.null, r)
    | 't' :: 'r' :: 'u' :: 'e' :: r => some (.bool true, r)
    | 'f' :: 'a' :: 'l' :: 's' :: 'e' :: r => some (.bool false, r)
    | '"' :: r => (parseStringBody r).map (fun p => (.str p.1, p.2))
    | '[' :: r =>
      (match skipWs r with
       | ']' :: r' => some (.arr .nil, r')
       | _ => (parseArrElems f (skipWs r)).map (fun p => (.arr p.1, p.2)))
    | '\x7b' :: r =>
      (match skipWs r with
       | '\x7d' :: r' => some (.obj .nil, r')
       | _ => (parseObjFields f (skipWs r)).map (fun p => (.obj p.1, p.2)))
    | '-' :: r => (readDigitRun r).map (fun p => (.num (-(p.1 : Int)), p.2))
    | c :: r =>
      if isDigitCh c then
        (readDigitRun (c :: r)).map (fun p => (.num (p.1 : Int), p.2))
      else none
    | [] => none
/-- One or more comma-separated array elements followed by `]`. -/
def parseArrElems : Nat → List Char → Option (JArr × List Char)
  | 0, _ => none
  | f + 1, l =>
    match parseVal f l with
    | none => none
    | some (v, r) =>
      match skipWs r with
      | ',' :: r' => (parseArrElems f r').map (fun p => (.cons v p.1, p.2))
      | ']' :: r' => some (.cons v .nil, r')
      | _ => none
/-- One or more comma-separated `"key": value` fields followed by `}`. -/
def parseObjFields : Nat → List Char → Option (JObj × List Char)
  | 0, _ => none
  | f + 1, l =>
    match skipWs l with
    | '"' :: r =>
      (match parseStringBody r with
       | none => none
       | some (k, r1) =>
         match skipWs r1 with
         | ':' :: r2 =>
           (match parseVal f r2 with
            | none => none
            | some (v, r3) =>
              match skipWs r3 with
              | ',' :: r4 => (parseObjFields f r4).map (fun p => (.cons k v p.1, p.2))
              | '\x7d' :: r4 => some (.cons k v .nil, r4)
              | _ => none)
         | _ => none)
    | _ => none
end

/-- `JSON.parse`: one value, then only trailing whitespace. -/
def jsonParse (l : List Char) : Option JValue :=
  match parseVal (l.length + 1) l with
  | some (v, r) => if (skipWs r).isEmpty then some v else none
  | none => none

mutual
/-- Fuel needed by the parser to read the serialised form of a value: one
unit per nesting step (`parseVal` to `parseArrElems` / `parseObjFields`,
and element to element along a list). -/
def sizeJV : JValue → Nat
  | .null => 1
  | .bool _ => 1
  | .num _ => 1
  | .str _ => 1
  | .arr a => sizeJA a + 1
  | .obj o => sizeJO o + 1
def sizeJA : JArr → Nat
  | .nil => 0
  | .cons v rest => max (sizeJV v) (sizeJA rest) + 1
def sizeJO : JObj → Nat
  | .nil => 0
  | .cons _ v rest => max (sizeJV v) (sizeJO rest) + 1
end

/-! ### Round trip of the JSON serialiser through the parser -/

theorem digitCh_toNat {n : Nat} (h : n < 10) : (digitCh n).toNat = 48 + n := by
  interval_cases n <;> decide

theorem isDigitCh_digitCh {n : Nat} (h : n < 10) :
    isDigitCh (digitCh n) = true := by
  interval_cases n <;> decide

theorem digitVal_digitCh {n : Nat} (h : n < 10) : digitVal (digitCh n) = n := by
  interval_cases n <;> decide

theorem natToCharsGo_digits :
    ∀ f n c, c ∈ natToCharsGo f n → isDigitCh c = true := by
  intro f
  induction f with
  | zero => intro n c hc; simp [natToCharsGo] at hc
  | succ f ih =>
    intro n c hc
    rw [natToCharsGo] at hc
    by_cases h : n < 10
    · rw [if_pos h] at hc
      simp only [List.mem_singleton] at hc
      subst hc
      exact isDigitCh_digitCh h
    · rw [if_neg h] at hc
      rcases List.mem_append.mp hc with h1 | h2
      · exact ih _ c h1
      · simp only [List.mem_singleton] at h2
        subst h2
        exact isDigitCh_digitCh (Nat.mod_lt _ (by omega))

theorem natToChars_digits {n : Nat} {c : Char} (hc : c ∈ natToChars n) :
    isDigitCh c = true :=
  natToCharsGo_digits _ _ _ hc

theorem natToChars_ne_nil (n : Nat) : natToChars n ≠ [] := by
  unfold natToChars natToCharsGo
  by_cases h : n < 10
  · simp [h]
  · simp [h]

theorem digitsVal_append_digit (xs : List Char) (c : Char) :
    digitsVal (xs ++ [c]) = digitsVal xs * 10 + digitVal c := by
  unfold digitsVal
  rw [List.foldl_append]
  rfl

theorem digitsVal_natToCharsGo : ∀ f n, n < f →
    digitsVal (natToCharsGo f n) = n := by
  intro f
  induction f with
  | zero => omega
  | succ f ih =>
    intro n hn
    rw [natToCharsGo]
    by_cases h : n < 10
    · rw [if_pos h]
      show digitsVal ([] ++ [digitCh n]) = n
      rw [digitsVal_append_digit]
      simp [digitsVal, digitVal_digitCh h]
    · rw [if_neg h]
      rw [digitsVal_append_digit, ih (n / 10) (by omega),
        digitVal_digitCh (Nat.mod_lt _ (by omega))]
      omega

theorem digitsVal_natToChars (n : Nat) : digitsVal (natToChars n) = n :=
  digitsVal_natToCharsGo (n + 1) n (Nat.lt_succ_self n)

theorem takeWhile_append_all {p : α → Bool} {xs : List α}
    (h : ∀ c ∈ xs, p c = true) (ys : List α) :
    (xs ++ ys).takeWhile p = xs ++ ys.takeWhile p := by
  induction xs with
  | nil => simp
  | cons a t ih =>
    have ha := h a (List.mem_cons_self a t)
    simp only [List.cons_append, List.takeWhile_cons, ha, if_true]
    rw [ih (fun c hc => h c (List.mem_cons_of_mem a hc))]

theorem dropWhile_append_all {p : α → Bool} {xs : List α}
    (h : ∀ c ∈ xs, p c = true) (ys : List α) :
    (xs ++ ys).dropWhile p = ys.dropWhile p := by
  induction xs with
  | nil => simp
  | cons a t ih =>
    have ha := h a (List.mem_cons_self a t)
    simp only [List.cons_append, List.dropWhile_cons, ha, if_true]
    exact ih (fun c hc => h c (List.mem_cons_of_mem a hc))

/-- No decimal digit immediately follows: the serialised form of a number is
not extended by the context (inside JSON the next character is `,`, `]`, `}`
or the end of input). -/
def numBoundary : List Char → Prop
  | [] => True
  | c :: _ => isDigitCh c = false

theorem takeWhile_numBoundary {ys : List Char} (h : numBoundary ys) :
    ys.takeWhile isDigitCh = [] := by
  cases ys with
  | nil => rfl
  | cons c t => simp [List.takeWhile_cons, numBoundary] at h ⊢; simp [h]

theorem dropWhile_numBoundary {ys : List Char} (h : numBoundary ys) :
    ys.dropWhile isDigitCh = ys := by
  cases ys with
  | nil => rfl
  | cons c t => simp [List.dropWhile_cons, numBoundary] at h ⊢; simp [h]

theorem readDigitRun_natToChars (n : Nat) {rest : List Char}
    (h : numBoundary rest) :
    readDigitRun (natToChars n ++ rest) = some (n, rest) := by
  unfold readDigitRun
  rw [takeWhile_append_all (fun c hc => natToChars_digits hc) rest,
    takeWhile_numBoundary h,
    dropWhile_append_all (fun c hc => natToChars_digits hc) rest,
    dropWhile_numBoundary h, List.append_nil]
  have hne := natToChars_ne_nil n
  rw [if_neg (by simpa [List.isEmpty_iff] using hne)]
  rw [digitsVal_natToChars]

theorem hexVal_hexChLower {m : Nat} (h : m < 16) :
    hexVal (hexChLower m) = some m := by
  interval_cases m <;> decide

theorem charOfNat_toNat (n : Nat) (h : n.isValidChar) :
    (Char.ofNat n).toNat = n := by
  unfold Char.ofNat
  rw [dif_pos h]
  unfold Char.ofNatAux
  show (BitVec.ofNatLt n _).toNat = n
  simp [BitVec.toNat_ofNatLt]

theorem parseStringBody_cons_literal {c : Char} (h1 : c ≠ '"')
    (h2 : c ≠ '\\') (h3 : ¬ c.toNat < 0x20) (l : List Char) :
    parseStringBody (c :: l) =
      (parseStringBody l).map (fun p => (c :: p.1, p.2)) := by
  rw [parseStringBody.eq_def]
  simp only [if_neg h1, if_neg h2, if_neg h3]


theorem psb_esc_quote (l : List Char) :
    parseStringBody ('\\' :: '"' :: l) =
      (parseStringBody l).map (fun p => ('"' :: p.1, p.2)) := by
  rw [parseStringBody.eq_def]
  simp only [reduceIte]
  simp

theorem psb_esc_backslash (l : List Char) :
    parseStringBody ('\\' :: '\\' :: l) =
      (parseStringBody l).map (fun p => ('\\' :: p.1, p.2)) := by
  rw [parseStringBody.eq_def]
  simp only [reduceIte]
  simp

theorem psb_esc_b (l : List Char) :
    parseStringBody ('\\' :: 'b' :: l) =
      (parseStringBody l).map (fun p => ('\x08' :: p.1, p.2)) := by
  rw [parseStringBody.eq_def]
  simp only [reduceIte]
  simp

theorem psb_esc_t (l : List Char) :
    parseStringBody ('\\' :: 't' :: l) =
      (parseStringBody l).map (fun p => ('\t' :: p.1, p.2)) := by
  rw [parseStringBody.eq_def]
  simp only [reduceIte]
  simp

theorem psb_esc_n (l : List Char) :
    parseStringBody ('\\' :: 'n' :: l) =
      (parseStringBody l).map (fun p => ('\n' :: p.1, p.2)) := by
  rw [parseStringBody.eq_def]
  simp only [reduceIte]
  simp

theorem psb_esc_f (l : List Char) :
    parseStringBody ('\\' :: 'f' :: l) =
      (parseStringBody l).map (fun p => ('\x0c' :: p.1, p.2)) := by
  rw [parseStringBody.eq_def]
  simp only [reduceIte]
  simp

theorem psb_esc_r (l : List Char) :
    parseStringBody ('\\' :: 'r' :: l) =
      (parseStringBody l).map (fun p => ('\r' :: p.1, p.2)) := by
  rw [parseStringBody.eq_def]
  simp only [reduceIte]
  simp

theorem psb_esc_u {x1 x2 x3 x4 : Char} {a b q d : Nat}
    (h1 : hexVal x1 = some a) (h2 : hexVal x2 = some b)
    (h3 : hexVal x3 = some q) (h4 : hexVal x4 = some d)
    (hlt : ((a * 16 + b) * 16 + q) * 16 + d < 0xd800) (l : List Char) :
    parseStringBody ('\\' :: 'u' :: x1 :: x2 :: x3 :: x4 :: l) =
      (parseStringBody l).map
        (fun p => (Char.ofNat (((a * 16 + b) * 16 + q) * 16 + d) :: p.1, p.2)) := by
  rw [parseStringBody.eq_def]
  simp only [reduceIte, h1, h2, h3, h4]
  simp only [Char.reduceEq, reduceIte]
  rw [if_pos hlt]

theorem parseStringBody_jsonEscape (s rest : List Char) :
    parseStringBody (jsonEscape s ++ '"' :: rest) = some (s, rest) := by
  induction s with
  | nil =>
    show parseStringBody ('"' :: rest) = some ([], rest)
    rw [parseStringBody.eq_def]
    simp
  | cons c s ih =>
    show parseStringBody ((c :: s).flatMap jsonEscapeChar ++ '"' :: rest) = _
    rw [List.flatMap_cons, List.append_assoc]
    have hX : s.flatMap jsonEscapeChar ++ '"' :: rest =
        jsonEscape s ++ '"' :: rest := rfl
    rw [hX]
    by_cases h1 : c = '"'
    · subst h1
      show parseStringBody ('\\' :: '"' :: (jsonEscape s ++ '"' :: rest)) = _
      rw [psb_esc_quote, ih]
      rfl
    · by_cases h2 : c = '\\'
      · subst h2
        show parseStringBody ('\\' :: '\\' :: (jsonEscape s ++ '"' :: rest)) = _
        rw [psb_esc_backslash, ih]
        rfl
      · by_cases h3 : c = '\x08'
        · subst h3
          show parseStringBody ('\\' :: 'b' :: (jsonEscape s ++ '"' :: rest)) = _
          rw [psb_esc_b, ih]
          rfl
        · by_cases h4 : c = '\t'
          · subst h4
            show parseStringBody
              ('\\' :: 't' :: (jsonEscape s ++ '"' :: rest)) = _
            rw [psb_esc_t, ih]
            rfl
          · by_cases h5 : c = '\n'
            · subst h5
              show parseStringBody
                ('\\' :: 'n' :: (jsonEscape s ++ '"' :: rest)) = _
              rw [psb_esc_n, ih]
              rfl
            · by_cases h6 : c = '\x0c'
              · subst h6
                show parseStringBody
                  ('\\' :: 'f' :: (jsonEscape s ++ '"' :: rest)) = _
                rw [psb_esc_f, ih]
                rfl
              · by_cases h7 : c = '\r'
                · subst h7
                  show parseStringBody
                    ('\\' :: 'r' :: (jsonEscape s ++ '"' :: rest)) = _
                  rw [psb_esc_r, ih]
                  rfl
                · by_cases h8 : c.toNat < 0x20
                  · rw [jsonEscapeChar, if_neg h1, if_neg h2, if_neg h3,
                      if_neg h4, if_neg h5, if_neg h6, if_neg h7, if_pos h8]
                    simp only [List.cons_append, List.nil_append]
                    have h00 : hexVal '0' = some 0 := by decide
                    have hd16 : c.toNat / 16 < 16 := by omega
                    have hm16 : c.toNat % 16 < 16 := by omega
                    rw [psb_esc_u h00 h00 (hexVal_hexChLower hd16)
                      (hexVal_hexChLower hm16) (by omega), ih]
                    have hv : ((0 * 16 + 0) * 16 + c.toNat / 16) * 16 +
                        c.toNat % 16 = c.toNat := by omega
                    rw [hv, Char.ofNat_toNat]
                    rfl
                  · rw [jsonEscapeChar, if_neg h1, if_neg h2, if_neg h3,
                      if_neg h4, if_neg h5, if_neg h6, if_neg h7, if_neg h8]
                    show parseStringBody
                      (c :: (jsonEscape s ++ '"' :: rest)) = _
                    rw [parseStringBody_cons_literal h1 h2 h8, ih]
                    rfl

/-- Guard for serialising a number into a context: the next character must
not extend the digit run (inside JSON it is `,`, `]`, `}` or end of
input). -/
def tailGuard : JValue → List Char → Prop
  | .num _, rest => numBoundary rest
  | _, _ => True

theorem numBoundary_of (c : Char) (l : List Char) (h : isDigitCh c = false) :
    numBoundary (c :: l) := h

theorem tailGuard_of_numBoundary {rest : List Char} (h : numBoundary rest)
    (v : JValue) : tailGuard v rest := by
  cases v
  case num => exact h
  all_goals trivial

theorem sizeJV_pos (v : JValue) : 1 ≤ sizeJV v := by
  cases v <;> simp [sizeJV]

theorem digit_head_facts {c : Char} (h : isDigitCh c = true) :
    isJsonWs c = false ∧ c ≠ ']' ∧ c ≠ '\x7d' := by
  refine ⟨?_, ?_, ?_⟩
  · by_contra hw
    rw [Bool.not_eq_false] at hw
    simp only [isJsonWs, Bool.or_eq_true, decide_eq_true_eq] at hw
    rcases hw with ((h1 | h1) | h1) | h1 <;> (subst h1; exact absurd h (by decide))
  · intro heq; subst heq; exact absurd h (by decide)
  · intro heq; subst heq; exact absurd h (by decide)

theorem skipWs_cons_of_not_ws {c : Char} (h : isJsonWs c = false)
    (l : List Char) : skipWs (c :: l) = c :: l := by
  simp [skipWs, List.dropWhile_cons, h]

theorem stringifyV_head (v : JValue) :
    ∃ c cs, stringifyV v = c :: cs ∧ isJsonWs c = false ∧
      c ≠ ']' ∧ c ≠ '\x7d' := by
  cases v with
  | null =>
    refine ⟨'n', _, rfl, ?_, ?_, ?_⟩ <;> decide
  | bool b =>
    cases b with
    | true =>
      refine ⟨'t', _, rfl, ?_, ?_, ?_⟩ <;> decide
    | false =>
      refine ⟨'f', _, rfl, ?_, ?_, ?_⟩ <;> decide
  | num i =>
    show ∃ c cs, intToChars i = c :: cs ∧ _
    rw [intToChars]
    by_cases h : i < 0
    · rw [if_pos h]
      refine ⟨'-', _, rfl, ?_, ?_, ?_⟩ <;> decide
    · rw [if_neg h]
      cases hn : natToChars i.natAbs with
      | nil => exact absurd hn (natToChars_ne_nil _)
      | cons c cs =>
        have hd : isDigitCh c = true :=
          natToChars_digits (by rw [hn]; exact List.mem_cons_self c cs)
        obtain ⟨hws, hbr, hbc⟩ := digit_head_facts hd
        exact ⟨c, cs, rfl, hws, hbr, hbc⟩
  | str s =>
    refine ⟨'"', _, rfl, ?_, ?_, ?_⟩ <;> decide
  | arr a =>
    refine ⟨'[', _, rfl, ?_, ?_, ?_⟩ <;> decide
  | obj o =>
    refine ⟨'\x7b', _, rfl, ?_, ?_, ?_⟩ <;> decide

theorem sAE_head (v : JValue) (t : JArr) :
    ∃ c cs, stringifyArrElems (JArr.cons v t) = c :: cs ∧
      isJsonWs c = false ∧ c ≠ ']' ∧ c ≠ '\x7d' := by
  obtain ⟨c, cs, hv, h1, h2, h3⟩ := stringifyV_head v
  cases t with
  | nil =>
    exact ⟨c, cs, by
      rw [show stringifyArrElems (JArr.cons v JArr.nil) = stringifyV v from rfl,
        hv], h1, h2, h3⟩
  | cons w t' =>
    exact ⟨c, cs ++ ',' :: stringifyArrElems (JArr.cons w t'), by
      rw [show stringifyArrElems (JArr.cons v (JArr.cons w t')) =
        stringifyV v ++ ',' :: stringifyArrElems (JArr.cons w t') from rfl,
        hv, List.cons_append], h1, h2, h3⟩

theorem sOF_head (k : List Char) (v : JValue) (t : JObj) :
    ∃ cs, stringifyObjFields (JObj.cons k v t) = '"' :: cs := by
  cases t with
  | nil => exact ⟨_, rfl⟩
  | cons k' w t' => exact ⟨_, rfl⟩


mutual

theorem parseVal_stringify (v : JValue) (f : Nat) (rest : List Char)
    (hf : sizeJV v ≤ f) (hg : tailGuard v rest) :
    parseVal f (stringifyV v ++ rest) = some (v, rest) := by
  obtain ⟨g, rfl⟩ : ∃ g, f = g + 1 :=
    ⟨f - 1, by have := sizeJV_pos v; omega⟩
  cases v with
  | null =>
    show parseVal (g + 1) ('n' :: 'u' :: 'l' :: 'l' :: rest) = _
    rw [parseVal, skipWs_cons_of_not_ws (by decide)]
    rfl
  | bool b =>
    cases b with
    | true =>
      show parseVal (g + 1) ('t' :: 'r' :: 'u' :: 'e' :: rest) = _
      rw [parseVal, skipWs_cons_of_not_ws (by decide)]
      rfl
    | false =>
      show parseVal (g + 1) ('f' :: 'a' :: 'l' :: 's' :: 'e' :: rest) = _
      rw [parseVal, skipWs_cons_of_not_ws (by decide)]
      rfl
  | num i =>
    have hb : numBoundary rest := hg
    show parseVal (g + 1) (intToChars i ++ rest) = _
    rw [parseVal, intToChars]
    by_cases hneg : i < 0
    · rw [if_pos hneg]
      rw [show ('-' :: natToChars i.natAbs) ++ rest =
        '-' :: (natToChars i.natAbs ++ rest) from rfl]
      rw [skipWs_cons_of_not_ws (by decide)]
      show (readDigitRun (natToChars i.natAbs ++ rest)).map
          (fun p => (JValue.num (-(p.1 : Int)), p.2)) = _
      rw [readDigitRun_natToChars _ hb]
      show some (JValue.num (-(i.natAbs : Int)), rest) = _
      have hcast : -(i.natAbs : Int) = i := by omega
      rw [hcast]
    · rw [if_neg hneg]
      cases hn : natToChars i.natAbs with
      | nil => exact absurd hn (natToChars_ne_nil _)
      | cons d ds =>
        have hd : isDigitCh d = true :=
          natToChars_digits (by rw [hn]; exact List.mem_cons_self d ds)
        have e1 : d ≠ 'n' := fun h => absurd hd (by rw [h]; decide)
        have e2 : d ≠ 't' := fun h => absurd hd (by rw [h]; decide)
        have e3 : d ≠ 'f' := fun h => absurd hd (by rw [h]; decide)
        have e4 : d ≠ '"' := fun h => absurd hd (by rw [h]; decide)
        have e5 : d ≠ '[' := fun h => absurd hd (by rw [h]; decide)
        have e6 : d ≠ '\x7b' := fun h => absurd hd (by rw [h]; decide)
        have e7 : d ≠ '-' := fun h => absurd hd (by rw [h]; decide)
        rw [show (d :: ds) ++ rest = d :: (ds ++ rest) from rfl]
        rw [skipWs_cons_of_not_ws (digit_head_facts hd).1]
        split
        all_goals try (rename_i heq; rw [List.cons.injEq] at heq; first | exact absurd heq.1 e1 | exact absurd heq.1 e2 | exact absurd heq.1 e3 | exact absurd heq.1 e4 | exact absurd heq.1 e5 | exact absurd heq.1 e6 | exact absurd heq.1 e7)
        all_goals try (rename_i heq; exact absurd heq (List.cons_ne_nil _ _))
        rename_i heq
        rw [List.cons.injEq] at heq
        obtain ⟨h1, h2⟩ := heq
        subst h1
        subst h2
        rw [if_pos hd]
        rw [show d :: (ds ++ rest) = natToChars i.natAbs ++ rest from by
          rw [hn, List.cons_append]]
        rw [readDigitRun_natToChars _ hb]
        show some (JValue.num (i.natAbs : Int), rest) = _
        have hcast : ((i.natAbs : Int)) = i := by omega
        rw [hcast]
  | str s =>
    show parseVal (g + 1) (('"' :: (jsonEscape s ++ ['"'])) ++ rest) = _
    rw [show ('"' :: (jsonEscape s ++ ['"'])) ++ rest =
      '"' :: (jsonEscape s ++ '"' :: rest) from by simp]
    rw [parseVal, skipWs_cons_of_not_ws (by decide)]
    show (parseStringBody (jsonEscape s ++ '"' :: rest)).map
        (fun p => (JValue.str p.1, p.2)) = _
    rw [parseStringBody_jsonEscape]
    rfl
  | arr a =>
    show parseVal (g + 1) (('[' :: (stringifyArrElems a ++ [']'])) ++ rest) = _
    rw [show ('[' :: (stringifyArrElems a ++ [']'])) ++ rest =
      '[' :: (stringifyArrElems a ++ ']' :: rest) from by simp]
    rw [parseVal, skipWs_cons_of_not_ws (by decide)]
    cases a with
    | nil => rfl
    | cons v t =>
      obtain ⟨c, cs, hsh, hws, hbr, hbc⟩ := sAE_head v t
      show (match skipWs (stringifyArrElems (JArr.cons v t) ++ ']' :: rest) with
            | ']' :: r' => some (JValue.arr JArr.nil, r')
            | _ => (parseArrElems g
                (skipWs (stringifyArrElems (JArr.cons v t) ++ ']' :: rest))).map
                (fun (p : JArr × List Char) => (JValue.arr p.1, p.2))) = _
      rw [show stringifyArrElems (JArr.cons v t) ++ ']' :: rest =
        c :: (cs ++ ']' :: rest) from by rw [hsh, List.cons_append]]
      rw [skipWs_cons_of_not_ws hws]
      split
      · rename_i heq
        rw [List.cons.injEq] at heq
        exact absurd heq.1 hbr
      · rw [show c :: (cs ++ ']' :: rest) =
          stringifyArrElems (JArr.cons v t) ++ ']' :: rest from by
            rw [hsh, List.cons_append]]
        rw [parseArrElems_stringify (JArr.cons v t) g rest (by intro h; exact JArr.noConfusion h)
          (by have : sizeJV (JValue.arr (JArr.cons v t)) = sizeJA (JArr.cons v t) + 1 := rfl
              omega)]
        rfl
  | obj o =>
    show parseVal (g + 1)
      (('\x7b' :: (stringifyObjFields o ++ ['\x7d'])) ++ rest) = _
    rw [show ('\x7b' :: (stringifyObjFields o ++ ['\x7d'])) ++ rest =
      '\x7b' :: (stringifyObjFields o ++ '\x7d' :: rest) from by simp]
    rw [parseVal, skipWs_cons_of_not_ws (by decide)]
    cases o with
    | nil => rfl
    | cons k v t =>
      obtain ⟨cs, hsh⟩ := sOF_head k v t
      show (match skipWs (stringifyObjFields (JObj.cons k v t) ++ '\x7d' :: rest) with
            | '\x7d' :: r' => some (JValue.obj JObj.nil, r')
            | _ => (parseObjFields g
                (skipWs (stringifyObjFields (JObj.cons k v t) ++ '\x7d' :: rest))).map
                (fun (p : JObj × List Char) => (JValue.obj p.1, p.2))) = _
      rw [show stringifyObjFields (JObj.cons k v t) ++ '\x7d' :: rest =
        '"' :: (cs ++ '\x7d' :: rest) from by rw [hsh, List.cons_append]]
      rw [skipWs_cons_of_not_ws (by decide)]
      split
      · rename_i heq
        rw [List.cons.injEq] at heq
        exact absurd heq.1 (by decide)
      · rw [show '"' :: (cs ++ '\x7d' :: rest) =
          stringifyObjFields (JObj.cons k v t) ++ '\x7d' :: rest from by
            rw [hsh, List.cons_append]]
        rw [parseObjFields_stringify (JObj.cons k v t) g rest (by intro h; exact JObj.noConfusion h)
          (by have : sizeJV (JValue.obj (JObj.cons k v t)) = sizeJO (JObj.cons k v t) + 1 := rfl
              omega)]
        rfl

theorem parseArrElems_stringify (a : JArr) (f : Nat) (rest : List Char)
    (hne : a ≠ JArr.nil) (hf : sizeJA a ≤ f) :
    parseArrElems f (stringifyArrElems a ++ ']' :: rest) = some (a, rest) := by
  match a, hne, hf with
  | JArr.cons v t, _, hf =>
    have hsz : sizeJA (JArr.cons v t) = max (sizeJV v) (sizeJA t) + 1 := rfl
    obtain ⟨g, rfl⟩ : ∃ g, f = g + 1 := ⟨f - 1, by omega⟩
    rw [parseArrElems]
    cases t with
    | nil =>
      rw [show stringifyArrElems (JArr.cons v JArr.nil) ++ ']' :: rest =
        stringifyV v ++ ']' :: rest from rfl]
      rw [parseVal_stringify v g (']' :: rest) (by
          have h0 : sizeJA JArr.nil = 0 := rfl
          omega)
        (tailGuard_of_numBoundary (numBoundary_of _ _ (by decide)) v)]
      show (match skipWs (']' :: rest) with
            | ',' :: r' => (parseArrElems g r').map
                (fun (p : JArr × List Char) => (JArr.cons v p.1, p.2))
            | ']' :: r' => some (JArr.cons v JArr.nil, r')
            | _ => none) = _
      rw [skipWs_cons_of_not_ws (by decide)]
      rfl
    | cons w t' =>
      rw [show stringifyArrElems (JArr.cons v (JArr.cons w t')) ++ ']' :: rest =
        stringifyV v ++ ',' :: (stringifyArrElems (JArr.cons w t') ++ ']' :: rest) from by
          rw [show stringifyArrElems (JArr.cons v (JArr.cons w t')) =
            stringifyV v ++ ',' :: stringifyArrElems (JArr.cons w t') from rfl]
          simp]
      rw [parseVal_stringify v g _ (by omega)
        (tailGuard_of_numBoundary (numBoundary_of _ _ (by decide)) v)]
      show (match skipWs (',' :: (stringifyArrElems (JArr.cons w t') ++ ']' :: rest)) with
            | ',' :: r' => (parseArrElems g r').map
                (fun (p : JArr × List Char) => (JArr.cons v p.1, p.2))
            | ']' :: r' => some (JArr.cons v JArr.nil, r')
            | _ => none) = _
      rw [skipWs_cons_of_not_ws (by decide)]
      show (parseArrElems g (stringifyArrElems (JArr.cons w t') ++ ']' :: rest)).map
          (fun p => (JArr.cons v p.1, p.2)) = _
      rw [parseArrElems_stringify (JArr.cons w t') g rest
        (by intro h; exact JArr.noConfusion h) (by omega)]
      rfl

theorem parseObjFields_stringify (o : JObj) (f : Nat) (rest : List Char)
    (hne : o ≠ JObj.nil) (hf : sizeJO o ≤ f) :
    parseObjFields f (stringifyObjFields o ++ '\x7d' :: rest) =
      some (o, rest) := by
  match o, hne, hf with
  | JObj.cons k v t, _, hf =>
    have hsz : sizeJO (JObj.cons k v t) = max (sizeJV v) (sizeJO t) + 1 := rfl
    obtain ⟨g, rfl⟩ : ∃ g, f = g + 1 := ⟨f - 1, by omega⟩
    rw [parseObjFields]
    cases t with
    | nil =>
      rw [show stringifyObjFields (JObj.cons k v JObj.nil) ++ '\x7d' :: rest =
        '"' :: (jsonEscape k ++ '"' :: (':' :: (stringifyV v ++ '\x7d' :: rest))) from by
          rw [show stringifyObjFields (JObj.cons k v JObj.nil) =
            '"' :: (jsonEscape k ++ '"' :: ':' :: stringifyV v) from rfl]
          simp]
      rw [skipWs_cons_of_not_ws (by decide)]
      show (match parseStringBody
              (jsonEscape k ++ '"' :: (':' :: (stringifyV v ++ '\x7d' :: rest))) with
            | none => none
            | some (k', r1) =>
              match skipWs r1 with
              | ':' :: r2 =>
                (match parseVal g r2 with
                 | none => none
                 | some (w, r3) =>
                   match skipWs r3 with
                   | ',' :: r4 => (parseObjFields g r4).map
                       (fun (p : JObj × List Char) => (JObj.cons k' w p.1, p.2))
                   | '\x7d' :: r4 => some (JObj.cons k' w JObj.nil, r4)
                   | _ => none)
              | _ => none) = _
      rw [parseStringBody_jsonEscape]
      show (match skipWs (':' :: (stringifyV v ++ '\x7d' :: rest)) with
            | ':' :: r2 =>
              (match parseVal g r2 with
               | none => none
               | some (w, r3) =>
                 match skipWs r3 with
                 | ',' :: r4 => (parseObjFields g r4).map
                     (fun (p : JObj × List Char) => (JObj.cons k w p.1, p.2))
                 | '\x7d' :: r4 => some (JObj.cons k w JObj.nil, r4)
                 | _ => none)
            | _ => none) = _
      rw [skipWs_cons_of_not_ws (by decide)]
      show (match parseVal g (stringifyV v ++ '\x7d' :: rest) with
            | none => none
            | some (w, r3) =>
              match skipWs r3 with
              | ',' :: r4 => (parseObjFields g r4).map
                  (fun (p : JObj × List Char) => (JObj.cons k w p.1, p.2))
              | '\x7d' :: r4 => some (JObj.cons k w JObj.nil, r4)
              | _ => none) = _
      rw [parseVal_stringify v g _ (by
          have h0 : sizeJO JObj.nil = 0 := rfl
          omega)
        (tailGuard_of_numBoundary (numBoundary_of _ _ (by decide)) v)]
      show (match skipWs ('\x7d' :: rest) with
            | ',' :: r4 => (parseObjFields g r4).map
                (fun (p : JObj × List Char) => (JObj.cons k v p.1, p.2))
            | '\x7d' :: r4 => some (JObj.cons k v JObj.nil, r4)
            | _ => none) = _
      rw [skipWs_cons_of_not_ws (by decide)]
      rfl
    | cons k' w t' =>
      rw [show stringifyObjFields (JObj.cons k v (JObj.cons k' w t')) ++ '\x7d' :: rest =
        '"' :: (jsonEscape k ++ '"' :: (':' :: (stringifyV v ++
          ',' :: (stringifyObjFields (JObj.cons k' w t') ++ '\x7d' :: rest)))) from by
          rw [show stringifyObjFields (JObj.cons k v (JObj.cons k' w t')) =
            ('"' :: (jsonEscape k ++ '"' :: ':' :: stringifyV v)) ++
              ',' :: stringifyObjFields (JObj.cons k' w t') from rfl]
          simp]
      rw [skipWs_cons_of_not_ws (by decide)]
      show (match parseStringBody
              (jsonEscape k ++ '"' :: (':' :: (stringifyV v ++
                ',' :: (stringifyObjFields (JObj.cons k' w t') ++ '\x7d' :: rest)))) with
            | none => none
            | some (k0, r1) =>
              match skipWs r1 with
              | ':' :: r2 =>
                (match parseVal g r2 with
                 | none => none
                 | some (w0, r3) =>
                   match skipWs r3 with
                   | ',' :: r4 => (parseObjFields g r4).map
                       (fun (p : JObj × List Char) => (JObj.cons k0 w0 p.1, p.2))
                   | '\x7d' :: r4 => some (JObj.cons k0 w0 JObj.nil, r4)
                   | _ => none)
              | _ => none) = _
      rw [parseStringBody_jsonEscape]
      show (match skipWs (':' :: (stringifyV v ++
              ',' :: (stringifyObjFields (JObj.cons k' w t') ++ '\x7d' :: rest))) with
            | ':' :: r2 =>
              (match parseVal g r2 with
               | none => none
               | some (w0, r3) =>
                 match skipWs r3 with
                 | ',' :: r4 => (parseObjFields g r4).map
                     (fun (p : JObj × List Char) => (JObj.cons k w0 p.1, p.2))
                 | '\x7d' :: r4 => some (JObj.cons k w0 JObj.nil, r4)
                 | _ => none)
            | _ => none) = _
      rw [skipWs_cons_of_not_ws (by decide)]
      show (match parseVal g (stringifyV v ++
              ',' :: (stringifyObjFields (JObj.cons k' w t') ++ '\x7d' :: rest)) with
            | none => none
            | some (w0, r3) =>
              match skipWs r3 with
              | ',' :: r4 => (parseObjFields g r4).map
                  (fun (p : JObj × List Char) => (JObj.cons k w0 p.1, p.2))
              | '\x7d' :: r4 => some (JObj.cons k w0 JObj.nil, r4)
              | _ => none) = _
      rw [parseVal_stringify v g _ (by omega)
        (tailGuard_of_numBoundary (numBoundary_of _ _ (by decide)) v)]
      show (match skipWs (',' ::
              (stringifyObjFields (JObj.cons k' w t') ++ '\x7d' :: rest)) with
            | ',' :: r4 => (parseObjFields g r4).map
                (fun (p : JObj × List Char) => (JObj.cons k v p.1, p.2))
            | '\x7d' :: r4 => some (JObj.cons k v JObj.nil, r4)
            | _ => none) = _
      rw [skipWs_cons_of_not_ws (by decide)]
      show (parseObjFields g
          (stringifyObjFields (JObj.cons k' w t') ++ '\x7d' :: rest)).map
          (fun (p : JObj × List Char) => (JObj.cons k v p.1, p.2)) = _
      rw [parseObjFields_stringify (JObj.cons k' w t') g rest
        (by intro h; exact JObj.noConfusion h) (by omega)]
      rfl

end


mutual

theorem sizeJV_le_length (v : JValue) :
    sizeJV v ≤ (stringifyV v).length + 1 := by
  cases v with
  | null => simp [sizeJV, stringifyV]
  | bool b => cases b <;> simp [sizeJV, stringifyV]
  | num i => simp [sizeJV]
  | str s => simp [sizeJV]
  | arr a =>
    have h := sizeJA_le_length a
    have h1 : sizeJV (JValue.arr a) = sizeJA a + 1 := rfl
    have h2 : (stringifyV (JValue.arr a)).length =
        (stringifyArrElems a).length + 2 := by
      show ('[' :: (stringifyArrElems a ++ [']'])).length = _
      simp
    omega
  | obj o =>
    have h := sizeJO_le_length o
    have h1 : sizeJV (JValue.obj o) = sizeJO o + 1 := rfl
    have h2 : (stringifyV (JValue.obj o)).length =
        (stringifyObjFields o).length + 2 := by
      show ('\x7b' :: (stringifyObjFields o ++ ['\x7d'])).length = _
      simp
    omega

theorem sizeJA_le_length (a : JArr) :
    sizeJA a ≤ (stringifyArrElems a).length + 2 := by
  cases a with
  | nil => simp [sizeJA]
  | cons v t =>
    have hv := sizeJV_le_length v
    have h1 : sizeJA (JArr.cons v t) = max (sizeJV v) (sizeJA t) + 1 := rfl
    cases t with
    | nil =>
      have h2 : stringifyArrElems (JArr.cons v JArr.nil) = stringifyV v := rfl
      have h0 : sizeJA JArr.nil = 0 := rfl
      rw [h2]
      omega
    | cons w t' =>
      have ht := sizeJA_le_length (JArr.cons w t')
      have h2 : (stringifyArrElems (JArr.cons v (JArr.cons w t'))).length =
          (stringifyV v).length + 1 +
            (stringifyArrElems (JArr.cons w t')).length := by
        show (stringifyV v ++ ',' :: stringifyArrElems (JArr.cons w t')).length = _
        simp
        omega
      omega

theorem sizeJO_le_length (o : JObj) :
    sizeJO o ≤ (stringifyObjFields o).length + 2 := by
  cases o with
  | nil => simp [sizeJO]
  | cons k v t =>
    have hv := sizeJV_le_length v
    have h1 : sizeJO (JObj.cons k v t) = max (sizeJV v) (sizeJO t) + 1 := rfl
    cases t with
    | nil =>
      have h2 : (stringifyObjFields (JObj.cons k v JObj.nil)).length =
          (jsonEscape k).length + 3 + (stringifyV v).length := by
        show ('"' :: (jsonEscape k ++ '"' :: ':' :: stringifyV v)).length = _
        simp
        omega
      have h0 : sizeJO JObj.nil = 0 := rfl
      omega
    | cons k' w t' =>
      have ht := sizeJO_le_length (JObj.cons k' w t')
      have h2 : (stringifyObjFields (JObj.cons k v (JObj.cons k' w t'))).length =
          (jsonEscape k).length + 3 + (stringifyV v).length + 1 +
            (stringifyObjFields (JObj.cons k' w t')).length := by
        show (('"' :: (jsonEscape k ++ '"' :: ':' :: stringifyV v)) ++
          ',' :: stringifyObjFields (JObj.cons k' w t')).length = _
        simp
        omega
      omega

end

/-- `JSON.parse` inverts `JSON.stringify` on every JSON value. -/
theorem jsonParse_stringify (v : JValue) : jsonParse (stringifyV v) = some v := by
  unfold jsonParse
  have h1 : parseVal ((stringifyV v).length + 1) (stringifyV v ++ []) =
      some (v, []) :=
    parseVal_stringify v _ [] (sizeJV_le_length v)
      (tailGuard_of_numBoundary (by exact trivial) v)
  rw [List.append_nil] at h1
  rw [h1]
  rfl

/-! ## Percent-encoding (`encodeURIComponent` / `decodeURIComponent`)

`encodeURIComponent` leaves the unreserved characters
`A-Z a-z 0-9 - _ . ! ~ * ' ( )` and percent-encodes the UTF-8 bytes of every
other character with upper-case hexadecimal digits.  `decodeURIComponent`
reads a percent-encoded UTF-8 byte sequence back (a malformed sequence
raises `URIError`, modelled as `none`). -/

/-- The characters `encodeURIComponent` does not escape. -/
def isUriUnreserved (c : Char) : Bool :=
  ('A' ≤ c && c ≤ 'Z') || ('a' ≤ c && c ≤ 'z') || ('0' ≤ c && c ≤ '9') ||
    c = '-' || c = '_' || c = '.' || c = '!' || c = '~' || c = '*' ||
    c = '\x27' || c = '(' || c = ')'

/-- Upper-case hexadecimal digit (as `encodeURIComponent` emits). -/
def hexChUpper (n : Nat) : Char :=
  if n < 10 then digitCh n else Char.ofNat (55 + n)

/-- UTF-8 bytes of a scalar value. -/
def utf8Bytes (n : Nat) : List Nat :=
  if n < 0x80 then [n]
  else if n < 0x800 then [0xc0 + n / 64, 0x80 + n % 64]
  else if n < 0x10000 then
    [0xe0 + n / 4096, 0x80 + n / 64 % 64, 0x80 + n % 64]
  else
    [0xf0 + n / 262144, 0x80 + n / 4096 % 64, 0x80 + n / 64 % 64,
      0x80 + n % 64]

/-- `%XY` with upper-case hex digits for one byte. -/
def percentByte (b : Nat) : List Char :=
  ['%', hexChUpper (b / 16), hexChUpper (b % 16)]

/-- `encodeURIComponent` on one character. -/
def encodeUriChar (c : Char) : List Char :=
  if isUriUnreserved c then [c]
  else (utf8Bytes c.toNat).flatMap percentByte

def encodeURIComponent (s : List Char) : List Char :=
  s.flatMap encodeUriChar

/-- Read one `%XY` escape (both hex digit cases accepted, as in JS). -/
def readPercentByte : List Char → Option (Nat × List Char)
  | '%' :: h1 :: h2 :: r =>
    match hexVal h1, hexVal h2 with
    | some a, some b => some (a * 16 + b, r)
    | _, _ => none
  | _ => none

/-- Decode one percent-encoded character (one to four `%XY` groups forming a
UTF-8 sequence); rejects continuation-byte errors, overlong encodings,
surrogates and out-of-range values, as `decodeURIComponent` does. -/
def decodePercentChar (l : List Char) : Option (Char × List Char) :=
  match readPercentByte l with
  | none => none
  | some (b1, r1) =>
    if b1 < 0x80 then some (Char.ofNat b1, r1)
    else if b1 < 0xc0 then none
    else if b1 < 0xe0 then
      match readPercentByte r1 with
      | some (b2, r2) =>
        if 0x80 ≤ b2 && b2 < 0xc0 then
          let v := (b1 - 0xc0) * 64 + (b2 - 0x80)
          if 0x80 ≤ v then some (Char.ofNat v, r2) else none
        else none
      | none => none
    else if b1 < 0xf0 then
      match readPercentByte r1 with
      | some (b2, r2) =>
        match readPercentByte r2 with
        | some (b3, r3) =>
          if (0x80 ≤ b2 && b2 < 0xc0) && (0x80 ≤ b3 && b3 < 0xc0) then
            let v := (b1 - 0xe0) * 4096 + (b2 - 0x80) * 64 + (b3 - 0x80)
            if 0x800 ≤ v && (v < 0xd800 || 0xdfff < v) then
              some (Char.ofNat v, r3)
            else none
          else none
        | none => none
      | none => none
    else if b1 < 0xf8 then
      match readPercentByte r1 with
      | some (b2, r2) =>
        match readPercentByte r2 with
        | some (b3, r3) =>
          match readPercentByte r3 with
          | some (b4, r4) =>
            if (0x80 ≤ b2 && b2 < 0xc0) && (0x80 ≤ b3 && b3 < 0xc0) &&
                (0x80 ≤ b4 && b4 < 0xc0) then
              let v := (b1 - 0xf0) * 262144 + (b2 - 0x80) * 4096 +
                (b3 - 0x80) * 64 + (b4 - 0x80)
              if 0x10000 ≤ v && v < 0x110000 then some (Char.ofNat v, r4)
              else none
            else none
          | none => none
        | none => none
      | none => none
    else none

/-- `decodeURIComponent` over the whole input (`fuel` bounds the recursion;
the wrapper supplies the input length). -/
def decodeUriGo : Nat → List Char → Option (List Char)
  | _, [] => some []
  | 0, _ :: _ => none
  | f + 1, c :: rest =>
    if c = '%' then
      match decodePercentChar (c :: rest) with
      | some (ch, rem) => (decodeUriGo f rem).map (fun t => ch :: t)
      | none => none
    else (decodeUriGo f rest).map (fun t => c :: t)

def decodeURIComponent (l : List Char) : Option (List Char) :=
  decodeUriGo l.length l


theorem hexVal_hexChUpper {m : Nat} (h : m < 16) :
    hexVal (hexChUpper m) = some m := by
  interval_cases m <;> decide

theorem char_valid_scalar (c : Char) :
    c.toNat < 0xd800 ∨ (0xdfff < c.toNat ∧ c.toNat < 0x110000) := by
  have h := c.valid
  unfold UInt32.isValidChar at h
  unfold Nat.isValidChar at h
  exact h

theorem readPercentByte_percentByte {b : Nat} (hb : b < 256)
    (rest : List Char) :
    readPercentByte (percentByte b ++ rest) = some (b, rest) := by
  show readPercentByte ('%' :: hexChUpper (b / 16) :: hexChUpper (b % 16) ::
    rest) = _
  rw [readPercentByte]
  rw [hexVal_hexChUpper (by omega), hexVal_hexChUpper (by omega)]
  show some (b / 16 * 16 + b % 16, rest) = _
  have : b / 16 * 16 + b % 16 = b := by omega
  rw [this]


theorem decodePercentChar_utf8 (c : Char) (rest : List Char) :
    decodePercentChar ((utf8Bytes c.toNat).flatMap percentByte ++ rest) =
      some (c, rest) := by
  have hval := char_valid_scalar c
  by_cases h1 : c.toNat < 0x80
  · rw [show utf8Bytes c.toNat = [c.toNat] from by
      rw [utf8Bytes, if_pos h1]]
    rw [show ([c.toNat].flatMap percentByte) ++ rest =
      percentByte c.toNat ++ rest from by simp]
    rw [decodePercentChar, readPercentByte_percentByte (by omega)]
    simp only []
    rw [if_pos h1, Char.ofNat_toNat]
  · by_cases h2 : c.toNat < 0x800
    · rw [show utf8Bytes c.toNat =
        [0xc0 + c.toNat / 64, 0x80 + c.toNat % 64] from by
          rw [utf8Bytes, if_neg (by omega), if_pos h2]]
      rw [show ([0xc0 + c.toNat / 64, 0x80 + c.toNat % 64].flatMap
          percentByte) ++ rest =
        percentByte (0xc0 + c.toNat / 64) ++
          (percentByte (0x80 + c.toNat % 64) ++ rest) from by simp]
      rw [decodePercentChar, readPercentByte_percentByte (by omega)]
      simp only []
      rw [if_neg (by omega), if_neg (by omega), if_pos (by omega)]
      rw [readPercentByte_percentByte (by omega)]
      simp only []
      rw [if_pos (by simp only [Bool.and_eq_true, decide_eq_true_eq]; omega)]
      rw [if_pos (by omega)]
      have hv : (0xc0 + c.toNat / 64 - 0xc0) * 64 +
          (0x80 + c.toNat % 64 - 0x80) = c.toNat := by omega
      rw [hv, Char.ofNat_toNat]
    · by_cases h3 : c.toNat < 0x10000
      · rw [show utf8Bytes c.toNat =
          [0xe0 + c.toNat / 4096, 0x80 + c.toNat / 64 % 64,
            0x80 + c.toNat % 64] from by
            rw [utf8Bytes, if_neg (by omega), if_neg (by omega), if_pos h3]]
        rw [show ([0xe0 + c.toNat / 4096, 0x80 + c.toNat / 64 % 64,
            0x80 + c.toNat % 64].flatMap percentByte) ++ rest =
          percentByte (0xe0 + c.toNat / 4096) ++
            (percentByte (0x80 + c.toNat / 64 % 64) ++
              (percentByte (0x80 + c.toNat % 64) ++ rest)) from by simp]
        rw [decodePercentChar, readPercentByte_percentByte (by omega)]
        simp only []
        rw [if_neg (by omega), if_neg (by omega), if_neg (by omega),
          if_pos (by omega)]
        rw [readPercentByte_percentByte (by omega)]
        simp only []
        rw [readPercentByte_percentByte (by omega)]
        simp only []
        rw [if_pos (by simp only [Bool.and_eq_true, decide_eq_true_eq]; omega)]
        rw [if_pos (by simp only [Bool.and_eq_true, Bool.or_eq_true,
          decide_eq_true_eq]; omega)]
        have hv : (0xe0 + c.toNat / 4096 - 0xe0) * 4096 +
            (0x80 + c.toNat / 64 % 64 - 0x80) * 64 +
            (0x80 + c.toNat % 64 - 0x80) = c.toNat := by omega
        rw [hv, Char.ofNat_toNat]
      · rw [show utf8Bytes c.toNat =
          [0xf0 + c.toNat / 262144, 0x80 + c.toNat / 4096 % 64,
            0x80 + c.toNat / 64 % 64, 0x80 + c.toNat % 64] from by
            rw [utf8Bytes, if_neg (by omega), if_neg (by omega),
              if_neg (by omega)]]
        rw [show ([0xf0 + c.toNat / 262144, 0x80 + c.toNat / 4096 % 64,
            0x80 + c.toNat / 64 % 64, 0x80 + c.toNat % 64].flatMap
              percentByte) ++ rest =
          percentByte (0xf0 + c.toNat / 262144) ++
            (percentByte (0x80 + c.toNat / 4096 % 64) ++
              (percentByte (0x80 + c.toNat / 64 % 64) ++
                (percentByte (0x80 + c.toNat % 64) ++ rest))) from by simp]
        rw [decodePercentChar, readPercentByte_percentByte (by omega)]
        simp only []
        rw [if_neg (by omega), if_neg (by omega), if_neg (by omega),
          if_neg (by omega), if_pos (by omega)]
        rw [readPercentByte_percentByte (by omega)]
        simp only []
        rw [readPercentByte_percentByte (by omega)]
        simp only []
        rw [readPercentByte_percentByte (by omega)]
        simp only []
        rw [if_pos (by simp only [Bool.and_eq_true, decide_eq_true_eq]; omega)]
        rw [if_pos (by simp only [Bool.and_eq_true, decide_eq_true_eq]; omega)]
        have hv : (0xf0 + c.toNat / 262144 - 0xf0) * 262144 +
            (0x80 + c.toNat / 4096 % 64 - 0x80) * 4096 +
            (0x80 + c.toNat / 64 % 64 - 0x80) * 64 +
            (0x80 + c.toNat % 64 - 0x80) = c.toNat := by omega
        rw [hv, Char.ofNat_toNat]


theorem utf8Bytes_ne_nil (n : Nat) : utf8Bytes n ≠ [] := by
  rw [utf8Bytes]
  split_ifs <;> simp

theorem decodeUriGo_encode (s : List Char) : ∀ f : Nat,
    (encodeURIComponent s).length ≤ f →
    decodeUriGo f (encodeURIComponent s) = some s := by
  induction s with
  | nil =>
    intro f hf
    show decodeUriGo f [] = some []
    cases f <;> rfl
  | cons c s ih =>
    intro f hf
    by_cases hu : isUriUnreserved c = true
    · have henc : encodeURIComponent (c :: s) = c :: encodeURIComponent s := by
        show (c :: s).flatMap encodeUriChar = _
        rw [List.flatMap_cons, encodeUriChar, if_pos hu]
        rfl
      rw [henc] at hf ⊢
      obtain ⟨g, rfl⟩ : ∃ g, f = g + 1 :=
        ⟨f - 1, by simp at hf; omega⟩
      rw [decodeUriGo]
      have hcp : c ≠ '%' := fun h => by
        rw [h] at hu; exact absurd hu (by decide)
      rw [if_neg hcp, ih g (by simp at hf; omega)]
      rfl
    · have henc : encodeURIComponent (c :: s) =
          (utf8Bytes c.toNat).flatMap percentByte ++ encodeURIComponent s := by
        show (c :: s).flatMap encodeUriChar = _
        rw [List.flatMap_cons, encodeUriChar, if_neg hu]
        rfl
      obtain ⟨b, bs, hb⟩ : ∃ b bs, utf8Bytes c.toNat = b :: bs := by
        cases h : utf8Bytes c.toNat with
        | nil => exact absurd h (utf8Bytes_ne_nil _)
        | cons b bs => exact ⟨b, bs, rfl⟩
      have hsplit : (utf8Bytes c.toNat).flatMap percentByte ++
          encodeURIComponent s =
          '%' :: (hexChUpper (b / 16) :: hexChUpper (b % 16) ::
            (bs.flatMap percentByte ++ encodeURIComponent s)) := by
        rw [hb, List.flatMap_cons]
        show (percentByte b ++ bs.flatMap percentByte) ++ _ = _
        rw [percentByte]
        simp
      have hlen : (encodeURIComponent (c :: s)).length =
          3 + (bs.flatMap percentByte ++ encodeURIComponent s).length := by
        rw [henc, hsplit]
        simp
        omega
      rw [henc, hsplit]
      obtain ⟨g, rfl⟩ : ∃ g, f = g + 1 :=
        ⟨f - 1, by rw [hlen] at hf; omega⟩
      rw [decodeUriGo, if_pos rfl]
      rw [show ('%' :: (hexChUpper (b / 16) :: hexChUpper (b % 16) ::
          (bs.flatMap percentByte ++ encodeURIComponent s))) =
        (utf8Bytes c.toNat).flatMap percentByte ++ encodeURIComponent s from by
          rw [hb, List.flatMap_cons]
          show _ = (percentByte b ++ bs.flatMap percentByte) ++ _
          rw [percentByte]
          simp]
      rw [decodePercentChar_utf8 c (encodeURIComponent s)]
      show (decodeUriGo g (encodeURIComponent s)).map (fun t => c :: t) = _
      have hrest : (encodeURIComponent s).length ≤ g := by
        rw [hlen] at hf
        have : (encodeURIComponent s).length ≤
            (bs.flatMap percentByte ++ encodeURIComponent s).length := by
          simp
        omega
      rw [ih g hrest]
      rfl

/-- `decodeURIComponent` inverts `encodeURIComponent`. -/
theorem decodeURIComponent_encode (s : List Char) :
    decodeURIComponent (encodeURIComponent s) = some s :=
  decodeUriGo_encode s _ (Nat.le_refl _)


theorem hexChUpper_safe {m : Nat} (h : m < 16) :
    hexChUpper m ≠ ';' ∧ hexChUpper m ≠ '=' ∧ isJsWs (hexChUpper m) = false := by
  interval_cases m <;> exact ⟨by decide, by decide, by decide⟩

theorem utf8Bytes_lt_256 {n : Nat} (hn : n < 0x110000) :
    ∀ b ∈ utf8Bytes n, b < 256 := by
  intro b hb
  rw [utf8Bytes] at hb
  split_ifs at hb with h1 h2 h3
  · simp at hb
    omega
  · simp at hb
    rcases hb with rfl | rfl <;> omega
  · simp at hb
    rcases hb with rfl | rfl | rfl <;> omega
  · simp at hb
    rcases hb with rfl | rfl | rfl | rfl <;> omega

/-- Every character of an `encodeURIComponent` output is safe inside a
cookie value: not `;`, not `=`, not whitespace. -/
theorem encodeURIComponent_safe {s : List Char} {c : Char}
    (hc : c ∈ encodeURIComponent s) :
    c ≠ ';' ∧ c ≠ '=' ∧ isJsWs c = false := by
  obtain ⟨c0, hc0, hmem⟩ := List.mem_flatMap.mp hc
  rw [encodeUriChar] at hmem
  by_cases hu : isUriUnreserved c0 = true
  · rw [if_pos hu] at hmem
    simp only [List.mem_singleton] at hmem
    subst hmem
    refine ⟨fun h => ?_, fun h => ?_, ?_⟩
    · rw [h] at hu; exact absurd hu (by decide)
    · rw [h] at hu; exact absurd hu (by decide)
    · by_contra hw
      rw [Bool.not_eq_false] at hw
      simp only [isJsWs, Bool.or_eq_true, decide_eq_true_eq] at hw
      rcases hw with ((((((h | h) | h) | h) | h) | h) | h) <;>
        (subst h; exact absurd hu (by decide))
  · rw [if_neg hu] at hmem
    obtain ⟨b, hbmem, hcb⟩ := List.mem_flatMap.mp hmem
    have hb256 : b < 256 := by
      have hval := char_valid_scalar c0
      exact utf8Bytes_lt_256 (by omega) b hbmem
    rw [percentByte] at hcb
    simp only [List.mem_cons, List.mem_singleton, List.not_mem_nil] at hcb
    rcases hcb with rfl | rfl | rfl | hfalse
    · exact ⟨by decide, by decide, by decide⟩
    · exact hexChUpper_safe (by omega)
    · exact hexChUpper_safe (by omega)
    · exact absurd hfalse (by simp)

/-! ## The cookie jar and the ride ledger

The browser's cookie store for one origin is a list of name/value pairs.
The `document.cookie` getter renders them as `"n1=v1; n2=v2"`; the setter
`document.cookie = "name=value; Max-Age=...; Path=/"` replaces the named
cookie's value (the attributes after the first `;` configure expiry and
scope and do not affect the stored value). -/

abbrev CookieJar := List (List Char × List Char)

/-- `COOKIE_NAME = "nyc_subway_rides"`. -/
def ridesCookieName : List Char :=
  ['n', 'y', 'c', '_', 's', 'u', 'b', 'w', 'a', 'y', '_', 'r', 'i', 'd',
    'e', 's']

/-- The string the `document.cookie` getter yields. -/
def docCookieChars : CookieJar → List Char
  | [] => []
  | [(n, v)] => n ++ '=' :: v
  | (n, v) :: rest => n ++ '=' :: v ++ ';' :: ' ' :: docCookieChars rest

/-- The `document.cookie` setter: update the named cookie in place, or
append it. -/
def setCookie : CookieJar → List Char → List Char → CookieJar
  | [], n, v => [(n, v)]
  | (n', v') :: rest, n, v =>
    if n' = n then (n, v) :: rest else (n', v') :: setCookie rest n v

/-- JS `String.prototype.split` with a one-character separator. -/
def splitOnChar (sep : Char) : List Char → List (List Char)
  | [] => [[]]
  | c :: rest =>
    if c = sep then [] :: splitOnChar sep rest
    else
      match splitOnChar sep rest with
      | [] => [[c]]
      | h :: t => (c :: h) :: t

/-- JS `String.prototype.trim`. -/
def trimChars (l : List Char) : List Char :=
  ((l.dropWhile isJsWs).reverse.dropWhile isJsWs).reverse

/-- JS `String.prototype.startsWith` (pattern first). -/
def startsWithChars : List Char → List Char → Bool
  | [], _ => true
  | _ :: _, [] => false
  | p :: ps, c :: cs => p = c && startsWithChars ps cs

/-- The search key `` `${COOKIE_NAME}=` ``. -/
def ridesCookieKey : List Char := ridesCookieName ++ ['=']

/-- `readRidesFromCookie()`: split `document.cookie` on `;`, trim each
piece, find the first piece starting with `nyc_subway_rides=`, take the text
after the first `=` (empty when absent, `match.split("=")[1] || ""`),
URL-decode it, `JSON.parse` it and require an array; every failure path
(missing cookie, decode error, parse error, non-array value — the code's
`try`/`catch` and `Array.isArray` check) yields the empty ledger. -/
def readRidesFromCookie (jar : CookieJar) : JArr :=
  match ((splitOnChar ';' (docCookieChars jar)).map trimChars).find?
      (fun comp => startsWithChars ridesCookieKey comp) with
  | none => JArr.nil
  | some m =>
    match decodeURIComponent ((splitOnChar '=' m).getD 1 []) with
    | none => JArr.nil
    | some dec =>
      match jsonParse dec with
      | some (JValue.arr a) => a
      | some _ => JArr.nil
      | none => JArr.nil

/-- `writeRidesToCookie(rides)`: store the URL-encoded JSON serialisation of
the ride array under `nyc_subway_rides` (`Max-Age` and `Path` attributes do
not affect the stored value). -/
def writeRidesToCookie (jar : CookieJar) (rides : JArr) : CookieJar :=
  setCookie jar ridesCookieName
    (encodeURIComponent (stringifyV (JValue.arr rides)))

/-- A cookie name that cannot confuse the ledger's cookie parsing: no `;`,
no `=`, no whitespace.  (True of every cookie name a browser accepts.) -/
def cookieNameOk (n : List Char) : Bool :=
  n.all (fun c => !(c = ';') && !(c = '=') && !(isJsWs c))

/-- A cookie value that survives the getter format: no `;`, no
whitespace. -/
def cookieValOk (v : List Char) : Bool :=
  v.all (fun c => !(c = ';') && !(isJsWs c))

/-- Well-formed cookie jar. -/
def jarWF (jar : CookieJar) : Bool :=
  jar.all (fun p => cookieNameOk p.1 && cookieValOk p.2)

theorem dropWhile_eq_self_all {p : Char → Bool} {l : List Char}
    (h : ∀ c ∈ l, p c = false) : l.dropWhile p = l := by
  cases l with
  | nil => rfl
  | cons c rest =>
    rw [List.dropWhile_cons, h c (List.mem_cons_self c rest)]
    simp

theorem trimChars_id {l : List Char} (h : ∀ c ∈ l, isJsWs c = false) :
    trimChars l = l := by
  unfold trimChars
  rw [dropWhile_eq_self_all h,
    dropWhile_eq_self_all (fun c hc => h c (List.mem_reverse.mp hc)),
    List.reverse_reverse]

theorem trimChars_cons_ws {c : Char} (h : isJsWs c = true) (l : List Char) :
    trimChars (c :: l) = trimChars l := by
  unfold trimChars
  rw [List.dropWhile_cons_of_pos h]

theorem splitOnChar_ne_nil (sep : Char) (l : List Char) :
    splitOnChar sep l ≠ [] := by
  cases l with
  | nil => simp [splitOnChar]
  | cons c rest =>
    rw [splitOnChar]
    by_cases h : c = sep
    · simp [h]
    · rw [if_neg h]
      cases splitOnChar sep rest with
      | nil => simp
      | cons h t => simp

theorem splitOnChar_no_sep {sep : Char} {l : List Char}
    (h : ∀ c ∈ l, ¬ c = sep) : splitOnChar sep l = [l] := by
  induction l with
  | nil => rfl
  | cons c rest ih =>
    rw [splitOnChar, if_neg (h c (List.mem_cons_self c rest)),
      ih (fun d hd => h d (List.mem_cons_of_mem c hd))]

theorem splitOnChar_append {sep : Char} {a : List Char}
    (h : ∀ c ∈ a, ¬ c = sep) (b : List Char) :
    splitOnChar sep (a ++ sep :: b) = a :: splitOnChar sep b := by
  induction a with
  | nil =>
    show splitOnChar sep (sep :: b) = [] :: splitOnChar sep b
    rw [splitOnChar, if_pos rfl]
  | cons c rest ih =>
    show splitOnChar sep (c :: (rest ++ sep :: b)) = _
    rw [splitOnChar, if_neg (h c (List.mem_cons_self c rest)),
      ih (fun d hd => h d (List.mem_cons_of_mem c hd))]

/-- Rendering one cookie as the getter shows it. -/
def cookiePairChars (p : List Char × List Char) : List Char :=
  p.1 ++ '=' :: p.2

theorem cookiePair_no_ws {p : List Char × List Char}
    (hn : cookieNameOk p.1 = true) (hv : cookieValOk p.2 = true) :
    ∀ c ∈ cookiePairChars p, isJsWs c = false := by
  intro c hc
  rw [cookiePairChars] at hc
  rcases List.mem_append.mp hc with h | h
  · have := List.all_eq_true.mp hn c h
    simp only [Bool.and_eq_true, Bool.not_eq_true'] at this
    exact this.2
  · rcases List.mem_cons.mp h with rfl | h
    · decide
    · have := List.all_eq_true.mp hv c h
      simp only [Bool.and_eq_true, Bool.not_eq_true'] at this
      exact this.2

theorem cookiePair_no_semi {p : List Char × List Char}
    (hn : cookieNameOk p.1 = true) (hv : cookieValOk p.2 = true) :
    ∀ c ∈ cookiePairChars p, ¬ c = ';' := by
  intro c hc
  rw [cookiePairChars] at hc
  rcases List.mem_append.mp hc with h | h
  · have := List.all_eq_true.mp hn c h
    simp only [Bool.and_eq_true, Bool.not_eq_true'] at this
    intro he
    rw [he] at this
    exact absurd this.1.1 (by decide)
  · rcases List.mem_cons.mp h with rfl | h
    · decide
    · have := List.all_eq_true.mp hv c h
      simp only [Bool.and_eq_true, Bool.not_eq_true'] at this
      intro he
      rw [he] at this
      exact absurd this.1 (by decide)

/-- For a well-formed non-empty jar, splitting and trimming the getter's
string recovers the rendered cookies. -/
theorem cookieComps_eq : ∀ (jar : CookieJar), jar ≠ [] → jarWF jar = true →
    (splitOnChar ';' (docCookieChars jar)).map trimChars =
      jar.map cookiePairChars := by
  intro jar
  induction jar with
  | nil => intro h; exact absurd rfl h
  | cons p rest ih =>
    intro _ hwf
    rw [jarWF, List.all_cons, Bool.and_eq_true] at hwf
    obtain ⟨hp, hrest⟩ := hwf
    rw [Bool.and_eq_true] at hp
    obtain ⟨hn, hv⟩ := hp
    obtain ⟨n, v⟩ := p
    cases rest with
    | nil =>
      rw [show docCookieChars [(n, v)] = cookiePairChars (n, v) from rfl]
      rw [splitOnChar_no_sep (cookiePair_no_semi hn hv)]
      rw [List.map_cons, List.map_nil, List.map_cons, List.map_nil]
      rw [trimChars_id (cookiePair_no_ws hn hv)]
    | cons q rest' =>
      rw [show docCookieChars ((n, v) :: q :: rest') =
        cookiePairChars (n, v) ++ ';' :: (' ' :: docCookieChars (q :: rest'))
        from by rw [docCookieChars, cookiePairChars]; simp]
      rw [splitOnChar_append (cookiePair_no_semi hn hv)]
      have hne := splitOnChar_ne_nil ';' (docCookieChars (q :: rest'))
      cases hsp : splitOnChar ';' (docCookieChars (q :: rest')) with
      | nil => exact absurd hsp hne
      | cons h0 t0 =>
        rw [show splitOnChar ';' (' ' :: docCookieChars (q :: rest')) =
          (' ' :: h0) :: t0 from by
            rw [splitOnChar, if_neg (by decide), hsp]]
        rw [List.map_cons, List.map_cons,
          trimChars_id (cookiePair_no_ws hn hv),
          trimChars_cons_ws (by decide)]
        have := ih (by simp) hrest
        rw [hsp, List.map_cons] at this
        rw [show trimChars h0 :: t0.map trimChars =
          (h0 :: t0).map trimChars from rfl] at this ⊢
        rw [← hsp] at this ⊢
        rw [this]
        rfl

theorem startsWith_key_aux : ∀ (A n v : List Char) (x : Char),
    (∀ c ∈ A, ¬ c = x) → (∀ c ∈ n, ¬ c = x) →
    (startsWithChars (A ++ [x]) (n ++ x :: v) = true ↔ A = n) := by
  intro A
  induction A with
  | nil =>
    intro n v x _ hn
    cases n with
    | nil => simp [startsWithChars]
    | cons c n' =>
      show startsWithChars [x] (c :: (n' ++ x :: v)) = true ↔ _
      rw [startsWithChars]
      constructor
      · intro h
        rw [show startsWithChars [] (n' ++ x :: v) = true from rfl,
          Bool.and_true] at h
        rw [decide_eq_true_eq] at h
        exact absurd h.symm (hn c (List.mem_cons_self c n'))
      · intro h
        exact absurd h (by simp)
  | cons a A' ih =>
    intro n v x hA hn
    have ha : ¬ a = x := hA a (List.mem_cons_self a A')
    cases n with
    | nil =>
      show startsWithChars ((a :: A') ++ [x]) (x :: v) = true ↔ _
      rw [show ((a :: A') ++ [x]) = a :: (A' ++ [x]) from rfl, startsWithChars]
      constructor
      · intro h
        rw [Bool.and_eq_true, decide_eq_true_eq] at h
        exact absurd h.1 ha
      · intro h
        exact absurd h (by simp)
    | cons c n' =>
      show startsWithChars (a :: (A' ++ [x])) (c :: (n' ++ x :: v)) = true ↔ _
      rw [startsWithChars, Bool.and_eq_true, decide_eq_true_eq]
      rw [ih n' v x (fun d hd => hA d (List.mem_cons_of_mem a hd))
        (fun d hd => hn d (List.mem_cons_of_mem c hd))]
      constructor
      · intro ⟨h1, h2⟩
        rw [h1, h2]
      · intro h
        rw [List.cons.injEq] at h
        exact h

theorem startsWith_key_iff {n v : List Char} (hn : cookieNameOk n = true) :
    startsWithChars ridesCookieKey (cookiePairChars (n, v)) = true ↔
      n = ridesCookieName := by
  have h1 : ∀ c ∈ ridesCookieName, ¬ c = '=' := by decide
  have h2 : ∀ c ∈ n, ¬ c = '=' := by
    intro c hc he
    have := List.all_eq_true.mp hn c hc
    rw [he] at this
    exact absurd this (by decide)
  rw [show cookiePairChars (n, v) = n ++ '=' :: v from rfl]
  rw [show ridesCookieKey = ridesCookieName ++ ['='] from rfl]
  rw [startsWith_key_aux ridesCookieName n v '=' h1 h2]
  constructor
  · intro h; exact h.symm
  · intro h; exact h.symm

theorem find?_congr_wf {α : Type} {p q wf : α → Bool} : ∀ {l : List α},
    l.all wf = true → (∀ a, wf a = true → p a = q a) →
    l.find? p = l.find? q := by
  intro l
  induction l with
  | nil => intro _ _; rfl
  | cons a t ih =>
    intro hall h
    rw [List.all_cons, Bool.and_eq_true] at hall
    rw [List.find?_cons, List.find?_cons, h a hall.1, ih hall.2 h]

theorem find?_setCookie : ∀ (jar : CookieJar) (n v : List Char),
    (setCookie jar n v).find? (fun p => decide (p.1 = n)) = some (n, v) := by
  intro jar n v
  induction jar with
  | nil =>
    show List.find? _ [(n, v)] = _
    rw [List.find?_cons]
    simp
  | cons p rest ih =>
    obtain ⟨n', v'⟩ := p
    rw [setCookie]
    by_cases h : n' = n
    · rw [if_pos h, List.find?_cons]
      simp
    · rw [if_neg h, List.find?_cons]
      have : (decide ((n', v').1 = n)) = false := by
        simp only [decide_eq_false_iff_not]
        exact h
      rw [this, ih]

theorem jarWF_setCookie {jar : CookieJar} {n v : List Char}
    (hj : jarWF jar = true) (hn : cookieNameOk n = true)
    (hv : cookieValOk v = true) : jarWF (setCookie jar n v) = true := by
  induction jar with
  | nil =>
    show jarWF [(n, v)] = true
    rw [jarWF, List.all_cons]
    simp [hn, hv]
  | cons p rest ih =>
    obtain ⟨n', v'⟩ := p
    rw [jarWF, List.all_cons, Bool.and_eq_true] at hj
    rw [setCookie]
    by_cases h : n' = n
    · rw [if_pos h, jarWF, List.all_cons]
      simp only [Bool.and_eq_true]
      exact ⟨⟨hn, hv⟩, hj.2⟩
    · rw [if_neg h, jarWF, List.all_cons]
      simp only [Bool.and_eq_true]
      refine ⟨?_, ih hj.2⟩
      have := hj.1
      rw [Bool.and_eq_true] at this
      exact this

theorem setCookie_ne_nil (jar : CookieJar) (n v : List Char) :
    setCookie jar n v ≠ [] := by
  cases jar with
  | nil => simp [setCookie]
  | cons p rest =>
    obtain ⟨n', v'⟩ := p
    rw [setCookie]
    by_cases h : n' = n
    · rw [if_pos h]; simp
    · rw [if_neg h]; simp

/-- The ledger round trip over the cookie jar: writing the rides and reading
them back recovers them exactly (for any well-formed jar).  -/
theorem readRides_writeRides {jar : CookieJar} {rides : JArr}
    (h : jarWF jar = true) :
    readRidesFromCookie (writeRidesToCookie jar rides) = rides := by
  have hsafe : ∀ c ∈ encodeURIComponent (stringifyV (JValue.arr rides)),
      c ≠ ';' ∧ c ≠ '=' ∧ isJsWs c = false :=
    fun c hc => encodeURIComponent_safe hc
  have hvok : cookieValOk
      (encodeURIComponent (stringifyV (JValue.arr rides))) = true := by
    rw [cookieValOk, List.all_eq_true]
    intro c hc
    obtain ⟨h1, h2, h3⟩ := hsafe c hc
    simp only [Bool.and_eq_true, Bool.not_eq_true', decide_eq_false_iff_not]
    exact ⟨h1, h3⟩
  have hnok : cookieNameOk ridesCookieName = true := by decide
  have hwf' : jarWF (setCookie jar ridesCookieName
      (encodeURIComponent (stringifyV (JValue.arr rides)))) = true :=
    jarWF_setCookie h hnok hvok
  have hne : setCookie jar ridesCookieName
      (encodeURIComponent (stringifyV (JValue.arr rides))) ≠ [] :=
    setCookie_ne_nil _ _ _
  rw [writeRidesToCookie, readRidesFromCookie]
  rw [cookieComps_eq _ hne hwf']
  rw [List.find?_map]
  simp only [Function.comp_def]
  have hcongr : (setCookie jar ridesCookieName
      (encodeURIComponent (stringifyV (JValue.arr rides)))).find?
        (fun p => startsWithChars ridesCookieKey (cookiePairChars p)) =
      (setCookie jar ridesCookieName
      (encodeURIComponent (stringifyV (JValue.arr rides)))).find?
        (fun p => decide (p.1 = ridesCookieName)) := by
    refine find?_congr_wf hwf' ?_
    intro p hp
    obtain ⟨n, v⟩ := p
    rw [Bool.and_eq_true] at hp
    by_cases hn : n = ridesCookieName
    · rw [(startsWith_key_iff hp.1).mpr hn]
      simp [hn]
    · have : ¬ startsWithChars ridesCookieKey (cookiePairChars (n, v)) = true :=
        fun hh => hn ((startsWith_key_iff hp.1).mp hh)
      rw [Bool.not_eq_true] at this
      rw [this]
      simp [hn]
  rw [hcongr, find?_setCookie]
  show (match decodeURIComponent ((splitOnChar '='
      (cookiePairChars (ridesCookieName,
        encodeURIComponent (stringifyV (JValue.arr rides))))).getD 1 []) with
    | none => JArr.nil
    | some dec =>
      match jsonParse dec with
      | some (JValue.arr a) => a
      | some _ => JArr.nil
      | none => JArr.nil) = rides
  rw [show cookiePairChars (ridesCookieName,
      encodeURIComponent (stringifyV (JValue.arr rides))) =
    ridesCookieName ++ '=' ::
      encodeURIComponent (stringifyV (JValue.arr rides)) from rfl]
  rw [splitOnChar_append (by decide)]
  rw [splitOnChar_no_sep (fun c hc => (hsafe c hc).2.1)]
  show (match decodeURIComponent
      (encodeURIComponent (stringifyV (JValue.arr rides))) with
    | none => JArr.nil
    | some dec =>
      match jsonParse dec with
      | some (JValue.arr a) => a
      | some _ => JArr.nil
      | none => JArr.nil) = rides
  rw [decodeURIComponent_encode]
  show (match jsonParse (stringifyV (JValue.arr rides)) with
    | some (JValue.arr a) => a
    | some _ => JArr.nil
    | none => JArr.nil) = rides
  rw [jsonParse_stringify]

/-- **C4.** For every array of ride records (the cookie stores any JSON
array), `persist` (`writeRidesToCookie`) followed by `load`
(`readRidesFromCookie`) returns a structurally equal sequence, whatever
other well-formed cookies the jar holds. -/
theorem claim_C4_persist_load_round_trip (jar : CookieJar) (R : JArr)
    (h : jarWF jar = true) :
    readRidesFromCookie (writeRidesToCookie jar R) = R :=
  readRides_writeRides h

/-- A ride record like the ones `handleDetect` builds (string fields `id`,
`trainNumber`, `line`, `lineColor`, `model`, `division`, `timestamp`). -/
def sampleRide1 : JValue :=
  .obj (.cons ['i', 'd'] (.str ['a'])
    (.cons ['t', 'r', 'a', 'i', 'n', 'N', 'u', 'm', 'b', 'e', 'r']
      (.str ['8', '7', '7', '8'])
      (.cons ['l', 'i', 'n', 'e'] (.str ['Q'])
        (.cons ['m', 'o', 'd', 'e', 'l'] (.str ['R', '1', '6', '0', 'B'])
          .nil))))

def sampleRide2 : JValue :=
  .obj (.cons ['i', 'd'] (.str ['b'])
    (.cons ['l', 'i', 'n', 'e'] (.str ['7']) .nil))

theorem claim_C4_persist_load_round_trip_witness :
    jarWF [] = true ∧
      readRidesFromCookie
          (writeRidesToCookie [] (JArr.cons sampleRide1 JArr.nil)) =
        JArr.cons sampleRide1 JArr.nil :=
  ⟨rfl, claim_C4_persist_load_round_trip [] (JArr.cons sampleRide1 JArr.nil)
    rfl⟩

/-- **C5.** `load` (`readRidesFromCookie`) is a total function — every
failure is caught — and returns the empty sequence in each failure case:
cookie missing, URL-decoding failure, JSON-parsing failure, or a parsed
value that is not an array. -/
theorem claim_C5_load_failure_paths :
    (∀ jar : CookieJar,
      ((splitOnChar ';' (docCookieChars jar)).map trimChars).find?
          (fun comp => startsWithChars ridesCookieKey comp) = none →
      readRidesFromCookie jar = JArr.nil) ∧
    (∀ (jar : CookieJar) (m : List Char),
      ((splitOnChar ';' (docCookieChars jar)).map trimChars).find?
          (fun comp => startsWithChars ridesCookieKey comp) = some m →
      decodeURIComponent ((splitOnChar '=' m).getD 1 []) = none →
      readRidesFromCookie jar = JArr.nil) ∧
    (∀ (jar : CookieJar) (m dec : List Char),
      ((splitOnChar ';' (docCookieChars jar)).map trimChars).find?
          (fun comp => startsWithChars ridesCookieKey comp) = some m →
      decodeURIComponent ((splitOnChar '=' m).getD 1 []) = some dec →
      jsonParse dec = none →
      readRidesFromCookie jar = JArr.nil) ∧
    (∀ (jar : CookieJar) (m dec : List Char) (v : JValue),
      ((splitOnChar ';' (docCookieChars jar)).map trimChars).find?
          (fun comp => startsWithChars ridesCookieKey comp) = some m →
      decodeURIComponent ((splitOnChar '=' m).getD 1 []) = some dec →
      jsonParse dec = some v →
      (∀ a : JArr, v ≠ JValue.arr a) →
      readRidesFromCookie jar = JArr.nil) := by
  refine ⟨?_, ?_, ?_, ?_⟩
  · intro jar hfind
    rw [readRidesFromCookie, hfind]
  · intro jar m hfind hdec
    rw [readRidesFromCookie, hfind]
    show (match decodeURIComponent ((splitOnChar '=' m).getD 1 []) with
      | none => JArr.nil
      | some dec =>
        match jsonParse dec with
        | some (JValue.arr a) => a
        | some _ => JArr.nil
        | none => JArr.nil) = JArr.nil
    rw [hdec]
  · intro jar m dec hfind hdec hparse
    rw [readRidesFromCookie, hfind]
    show (match decodeURIComponent ((splitOnChar '=' m).getD 1 []) with
      | none => JArr.nil
      | some dec =>
        match jsonParse dec with
        | some (JValue.arr a) => a
        | some _ => JArr.nil
        | none => JArr.nil) = JArr.nil
    rw [hdec]
    show (match jsonParse dec with
      | some (JValue.arr a) => a
      | some _ => JArr.nil
      | none => JArr.nil) = JArr.nil
    rw [hparse]
  · intro jar m dec v hfind hdec hparse hv
    rw [readRidesFromCookie, hfind]
    show (match decodeURIComponent ((splitOnChar '=' m).getD 1 []) with
      | none => JArr.nil
      | some dec =>
        match jsonParse dec with
        | some (JValue.arr a) => a
        | some _ => JArr.nil
        | none => JArr.nil) = JArr.nil
    rw [hdec]
    show (match jsonParse dec with
      | some (JValue.arr a) => a
      | some _ => JArr.nil
      | none => JArr.nil) = JArr.nil
    rw [hparse]
    cases v with
    | arr a => exact absurd rfl (hv a)
    | null => rfl
    | bool b => rfl
    | num n => rfl
    | str s => rfl
    | obj o => rfl

theorem claim_C5_load_failure_paths_witness :
    readRidesFromCookie [] = JArr.nil ∧
    readRidesFromCookie [(ridesCookieName, ['%'])] = JArr.nil ∧
    readRidesFromCookie [(ridesCookieName, ['x'])] = JArr.nil ∧
    readRidesFromCookie [(ridesCookieName, ['1'])] = JArr.nil :=
  ⟨claim_C5_load_failure_paths.1 [] (by rfl),
    claim_C5_load_failure_paths.2.1 [(ridesCookieName, ['%'])]
      (ridesCookieName ++ ['=', '%']) (by rfl) (by rfl),
    claim_C5_load_failure_paths.2.2.1 [(ridesCookieName, ['x'])]
      (ridesCookieName ++ ['=', 'x']) ['x'] (by rfl) (by rfl) (by rfl),
    claim_C5_load_failure_paths.2.2.2 [(ridesCookieName, ['1'])]
      (ridesCookieName ++ ['=', '1']) ['1'] (JValue.num 1) (by rfl) (by rfl)
      (by rfl) (fun a h => JValue.noConfusion h)⟩

/-! ## Import (C6) and delete (C7) -/

/-- `importRides` after the file text is read: `JSON.parse` the text inside
`try`; throw (caught, alert shown) unless the value is an array; otherwise
`setRides(parsed)`.  Result: the ledger after the operation, and whether the
error alert was reported. -/
def importRides (text : List Char) (rides : JArr) : JArr × Bool :=
  match jsonParse text with
  | some (JValue.arr l) => (l, false)
  | some _ => (rides, true)
  | none => (rides, true)

/-- The same operation at the persisted-cookie level: on success the new
array is persisted by the `useCookieRides` effect; on error `setRides` is
never called, so no persist occurs. -/
def importRidesJar (text : List Char) (jar : CookieJar) : CookieJar :=
  match jsonParse text with
  | some (JValue.arr l) => writeRidesToCookie jar l
  | some _ => jar
  | none => jar

/-- **C6.** An import whose parsed JSON value is not an array is rejected:
a user-visible error is reported and the ledger is unchanged — no persist
occurs.  An import that parses to an array replaces the full ledger with
that array. -/
theorem claim_C6_import_validation :
    (∀ (text : List Char) (rides : JArr) (v : JValue),
      jsonParse text = some v → (∀ l : JArr, v ≠ JValue.arr l) →
      importRides text rides = (rides, true)) ∧
    (∀ (text : List Char) (rides : JArr) (l : JArr),
      jsonParse text = some (JValue.arr l) →
      importRides text rides = (l, false)) ∧
    (∀ (text : List Char) (jar : CookieJar) (v : JValue),
      jsonParse text = some v → (∀ l : JArr, v ≠ JValue.arr l) →
      importRidesJar text jar = jar) ∧
    (∀ (text : List Char) (jar : CookieJar) (l : JArr),
      jarWF jar = true → jsonParse text = some (JValue.arr l) →
      readRidesFromCookie (importRidesJar text jar) = l) := by
  refine ⟨?_, ?_, ?_, ?_⟩
  · intro text rides v hp hv
    rw [importRides, hp]
    cases v with
    | arr a => exact absurd rfl (hv a)
    | null => rfl
    | bool b => rfl
    | num n => rfl
    | str s => rfl
    | obj o => rfl
  · intro text rides l hp
    rw [importRides, hp]
  · intro text jar v hp hv
    rw [importRidesJar, hp]
    cases v with
    | arr a => exact absurd rfl (hv a)
    | null => rfl
    | bool b => rfl
    | num n => rfl
    | str s => rfl
    | obj o => rfl
  · intro text jar l hwf hp
    rw [importRidesJar, hp]
    show readRidesFromCookie (writeRidesToCookie jar l) = l
    exact readRides_writeRides hwf

/-- The import text of Scenario E: `{"not":"an array"}`. -/
def scenarioEText : List Char :=
  ['\x7b', '"', 'n', 'o', 't', '"', ':', '"', 'a', 'n', ' ', 'a', 'r', 'r',
    'a', 'y', '"', '\x7d']

theorem claim_C6_import_validation_witness :
    importRides scenarioEText (JArr.cons sampleRide1 JArr.nil) =
        (JArr.cons sampleRide1 JArr.nil, true) ∧
    importRides ['[', ']'] (JArr.cons sampleRide1 JArr.nil) =
        (JArr.nil, false) ∧
    importRidesJar scenarioEText [] = [] ∧
    readRidesFromCookie (importRidesJar ['[', ']'] []) = JArr.nil :=
  ⟨claim_C6_import_validation.1 scenarioEText (JArr.cons sampleRide1 JArr.nil)
      (JValue.obj (JObj.cons ['n', 'o', 't']
        (JValue.str ['a', 'n', ' ', 'a', 'r', 'r', 'a', 'y']) JObj.nil))
      (by rfl) (fun l h => JValue.noConfusion h),
    claim_C6_import_validation.2.1 ['[', ']']
      (JArr.cons sampleRide1 JArr.nil) JArr.nil (by rfl),
    claim_C6_import_validation.2.2.1 scenarioEText []
      (JValue.obj (JObj.cons ['n', 'o', 't']
        (JValue.str ['a', 'n', ' ', 'a', 'r', 'r', 'a', 'y']) JObj.nil))
      (by rfl) (fun l h => JValue.noConfusion h),
    claim_C6_import_validation.2.2.2 ['[', ']'] [] JArr.nil (by rfl) (by rfl)⟩

/-- Key `"id"`. -/
def idKey : List Char := ['i', 'd']

/-- Property lookup on a parsed JSON object: with duplicate keys the later
one wins, as in `JSON.parse`. -/
def jObjLookup (key : List Char) : JObj → Option JValue
  | .nil => none
  | .cons k v rest =>
    match jObjLookup key rest with
    | some w => some w
    | none => if k = key then some v else none

/-- JS property access `r.id`: objects yield the property or `undefined`
(`some none`); non-object primitives yield `undefined`; `null` throws
(`none`). -/
def jsGetIdProp : JValue → Option (Option JValue)
  | .null => none
  | .obj fields => some (jObjLookup idKey fields)
  | _ => some none

/-- One step of the callback `(r) => r.id !== id`: keep `r`?  `none` models
the callback throwing (property access on `null`).  Strict inequality with
the string `delId` is false exactly for an equal string property. -/
def rideKeep (delId : List Char) (r : JValue) : Option Bool :=
  match jsGetIdProp r with
  | none => none
  | some none => some true
  | some (some (JValue.str s)) => some (decide (¬ s = delId))
  | some (some _) => some true

/-- `rides.filter((r) => r.id !== id)`; an exception aborts the whole
filter. -/
def deleteRideFilter (delId : List Char) : JArr → Option JArr
  | .nil => some .nil
  | .cons r rest =>
    match rideKeep delId r with
    | none => none
    | some true => (deleteRideFilter delId rest).map (fun t => JArr.cons r t)
    | some false => deleteRideFilter delId rest

/-- `deleteRide(id)` acting on the persisted ledger: `setRides` with the
filtered list persists it via the `useCookieRides` effect; if the filter
throws, `setRides` is never reached and the ledger stays as it was. -/
def deleteRideJar (delId : List Char) (jar : CookieJar) : CookieJar :=
  match deleteRideFilter delId (readRidesFromCookie jar) with
  | some remaining => writeRidesToCookie jar remaining
  | none => jar

/-- Keep-test used to state that a record does not match the identifier. -/
def keepOk (delId : List Char) (r : JValue) : Bool :=
  rideKeep delId r == some true

theorem deleteRideFilter_all_keep {delId : List Char} :
    ∀ (B : JArr), JArr.allB (keepOk delId) B = true →
      deleteRideFilter delId B = some B
  | JArr.nil, _ => rfl
  | JArr.cons r rest, hall => by
    rw [JArr.allB, Bool.and_eq_true] at hall
    have hk : rideKeep delId r = some true := by
      have := hall.1
      rw [keepOk, beq_iff_eq] at this
      exact this
    rw [deleteRideFilter, hk, deleteRideFilter_all_keep rest hall.2]
    rfl

theorem deleteRideFilter_removes {delId : List Char} {r : JValue}
    (hr : rideKeep delId r = some false) : ∀ (A B : JArr),
    JArr.allB (keepOk delId) A = true → JArr.allB (keepOk delId) B = true →
    deleteRideFilter delId (A.append (JArr.cons r B)) = some (A.append B)
  | JArr.nil, B, _, hB => by
    show deleteRideFilter delId (JArr.cons r B) = some B
    rw [deleteRideFilter, hr, deleteRideFilter_all_keep B hB]
  | JArr.cons a A', B, hA, hB => by
    rw [JArr.allB, Bool.and_eq_true] at hA
    have hk : rideKeep delId a = some true := by
      have := hA.1
      rw [keepOk, beq_iff_eq] at this
      exact this
    show deleteRideFilter delId (JArr.cons a (A'.append (JArr.cons r B))) = _
    rw [deleteRideFilter, hk, deleteRideFilter_removes hr A' B hA.2 hB]
    rfl

/-- **C7.** For a persisted ledger of the shape `A ++ [r] ++ B` where `r`
is the one record whose `id` equals the given identifier, `deleteById`
removes exactly that record and persists the remainder: a subsequent
`load()` returns `A ++ B`, all other records unchanged and in their
original order. -/
theorem claim_C7_delete_by_id (jar : CookieJar) (A B : JArr) (r : JValue)
    (delId : List Char) (hwf : jarWF jar = true)
    (hread : readRidesFromCookie jar = A.append (JArr.cons r B))
    (hr : rideKeep delId r = some false)
    (hA : JArr.allB (keepOk delId) A = true)
    (hB : JArr.allB (keepOk delId) B = true) :
    readRidesFromCookie (deleteRideJar delId jar) = A.append B := by
  rw [deleteRideJar, hread, deleteRideFilter_removes hr A B hA hB]
  show readRidesFromCookie (writeRidesToCookie jar (A.append B)) = _
  exact readRides_writeRides hwf

set_option maxRecDepth 8192 in
theorem claim_C7_delete_by_id_witness :
    jarWF (writeRidesToCookie []
        (JArr.cons sampleRide1 (JArr.cons sampleRide2 JArr.nil))) = true ∧
    readRidesFromCookie (writeRidesToCookie []
        (JArr.cons sampleRide1 (JArr.cons sampleRide2 JArr.nil))) =
      JArr.append JArr.nil (JArr.cons sampleRide1
        (JArr.cons sampleRide2 JArr.nil)) ∧
    readRidesFromCookie (deleteRideJar ['a'] (writeRidesToCookie []
        (JArr.cons sampleRide1 (JArr.cons sampleRide2 JArr.nil)))) =
      JArr.append JArr.nil (JArr.cons sampleRide2 JArr.nil) :=
  ⟨rfl, rfl,
    claim_C7_delete_by_id
      (writeRidesToCookie []
        (JArr.cons sampleRide1 (JArr.cons sampleRide2 JArr.nil)))
      JArr.nil (JArr.cons sampleRide2 JArr.nil) sampleRide1 ['a']
      rfl rfl rfl rfl rfl⟩

/-! ## Dataset store persistence and storage failures (C8)

`localStorage` is modelled through its single key `DATA_KEY`
(`nyc_subway_datasets_v1`): the state is the stored text, if any.  The
`fail` flag models the environment making a storage operation throw (quota
exceeded, storage disabled); `Except Unit` carries the exception. -/

def lsGetItem (fail : Bool) (st : Option (List Char)) :
    Except Unit (Option (List Char)) :=
  if fail then .error () else .ok st

def lsSetItem (fail : Bool) (_st : Option (List Char)) (v : List Char) :
    Except Unit (Option (List Char)) :=
  if fail then .error () else .ok (some v)

/-- `loadDatasets()`: `try { const raw = localStorage.getItem(DATA_KEY);
return raw ? JSON.parse(raw) : null } catch { return null }` — the
`try`/`catch` swallows both storage and parse failures; a missing key or
empty string (falsy `raw`) yields `null` without parsing. -/
def loadDatasets (fail : Bool) (st : Option (List Char)) :
    Except Unit (Option JValue) :=
  match lsGetItem fail st with
  | .error _ => .ok none
  | .ok raw =>
    match raw with
    | some (c :: cs) =>
      (match jsonParse (c :: cs) with
       | some v => .ok (some v)
       | none => .ok none)
    | _ => .ok none

/-- `saveDatasets(ds)`:
`localStorage.setItem(DATA_KEY, JSON.stringify(ds))` — with **no**
`try`/`catch`: a storage failure propagates to the caller. -/
def saveDatasets (fail : Bool) (st : Option (List Char)) (ds : JValue) :
    Except Unit (Option (List Char)) :=
  lsSetItem fail st (stringifyV ds)

/-- The `document.cookie` assignment, failure-aware. -/
def cookieAssignE (fail : Bool) (jar : CookieJar) (n v : List Char) :
    Except Unit CookieJar :=
  if fail then .error () else .ok (setCookie jar n v)

/-- `writeRidesToCookie(rides)` as written: the whole body sits in
`try { ... } catch { /* no-op */ }`, so a failure leaves the jar as it was
and nothing propagates. -/
def writeRidesToCookieF (fail : Bool) (jar : CookieJar) (rides : JArr) :
    Except Unit CookieJar :=
  match cookieAssignE fail jar ridesCookieName
      (encodeURIComponent (stringifyV (JValue.arr rides))) with
  | .ok j => .ok j
  | .error _ => .ok jar

/-- **C8 (counterexample).** The claim "storage read and write failures are
swallowed by the dataset store's load and save operations and never raised
to the caller" is false for `saveDatasets`: it has no `try`/`catch`, so a
failing `localStorage.setItem` raises to the caller. -/
theorem claim_C8_counterexample :
    saveDatasets true none JValue.null = Except.error () := rfl

/-- **C8 (amended).** Read failures are swallowed by `loadDatasets` (which
falls back to `null`, so `getDatasets` reseeds defaults), and the ride
ledger's cookie write swallows its failures; but `saveDatasets` does not
catch — a storage write failure there propagates to its caller. -/
theorem claim_C8_amended :
    (∀ (fail : Bool) (st : Option (List Char)),
      ∃ v, loadDatasets fail st = Except.ok v) ∧
    (∀ st : Option (List Char), loadDatasets true st = Except.ok none) ∧
    (∀ (fail : Bool) (jar : CookieJar) (rides : JArr),
      ∃ j, writeRidesToCookieF fail jar rides = Except.ok j) ∧
    (∀ (st : Option (List Char)) (ds : JValue),
      saveDatasets true st ds = Except.error ()) := by
  refine ⟨?_, ?_, ?_, ?_⟩
  · intro fail st
    cases fail with
    | true => exact ⟨none, rfl⟩
    | false =>
      cases st with
      | none => exact ⟨none, rfl⟩
      | some raw =>
        cases raw with
        | nil => exact ⟨none, rfl⟩
        | cons c cs =>
          have hred : loadDatasets false (some (c :: cs)) =
              (match jsonParse (c :: cs) with
               | some v => Except.ok (some v)
               | none => Except.ok none) := rfl
          cases hp : jsonParse (c :: cs) with
          | none => exact ⟨none, by rw [hred, hp]⟩
          | some v => exact ⟨some v, by rw [hred, hp]⟩
  · intro st
    rfl
  · intro fail jar rides
    cases fail with
    | true => exact ⟨jar, rfl⟩
    | false =>
      exact ⟨setCookie jar ridesCookieName
        (encodeURIComponent (stringifyV (JValue.arr rides))), rfl⟩
  · intro st ds
    rfl

/-! ## Dataset edit operations (C3)

To settle the aliasing behaviour of the `StatsPage` edit operations, entry
objects get explicit identity: a heap of `EntryObj`s addressed by index, and
a snapshot holding references.  `datasets.rollingStock` is an array of
object references; `{...datasets}` copies the outer object only, so the
reference array and the entry objects stay shared.  Lines are only ever
rebuilt with `map`/`filter`/spread, never mutated in place, so they can stay
plain values. -/

structure EntryObj where
  model : List Char
  division : List Char
  ranges : List (Int × Int)
deriving DecidableEq, Repr

instance : Inhabited EntryObj := ⟨⟨[], [], []⟩⟩

structure LineObj where
  id : List Char
  label : List Char
  division : List Char
  color : List Char
  terminals : List Char × List Char
deriving DecidableEq, Repr

abbrev EntryHeap := List EntryObj

/-- A dataset snapshot: entry references plus line values. -/
structure Datasets where
  rollingStock : List Nat
  lines : List LineObj
deriving DecidableEq, Repr

/-- What a holder of the snapshot observes: the dereferenced entry objects
and the lines. -/
def derefStock (h : EntryHeap) (ds : Datasets) :
    List EntryObj × List LineObj :=
  (ds.rollingStock.map (fun r => h.getD r default), ds.lines)

/-- All entry references point into the heap. -/
def stockRefsWF (h : EntryHeap) (ds : Datasets) : Bool :=
  ds.rollingStock.all (fun r => decide (r < h.length))

/-- JS `array.filter((_, i) => i !== idx)`. -/
def removeAt {α : Type} (l : List α) (idx : Nat) : List α :=
  (l.enum.filter (fun p => !(p.1 = idx))).map (fun p => p.2)

/-- `addStock`: `{...datasets, rollingStock: [...old, newEntry]}` — fresh
outer object, fresh array, one fresh entry object appended. -/
def addStock (h : EntryHeap) (ds : Datasets) : EntryHeap × Datasets :=
  (h ++ [⟨['N', 'e', 'w', ' ', 'M', 'o', 'd', 'e', 'l'], ['A'], [(0, 0)]⟩],
    { ds with rollingStock := ds.rollingStock ++ [h.length] })

inductive StockField where
  | model
  | division
deriving DecidableEq, Repr

/-- `updateStock(idx, field, value)`: map over the entries replacing
position `idx` by the fresh object `{...s, [field]: value}`.  (The fresh
object is allocated here even when `idx` is out of range; it is then simply
unreferenced.) -/
def updateStock (h : EntryHeap) (ds : Datasets) (idx : Nat)
    (field : StockField) (value : List Char) : EntryHeap × Datasets :=
  let oldObj := h.getD (ds.rollingStock.getD idx 0) default
  let newObj := match field with
    | .model => { oldObj with model := value }
    | .division => { oldObj with division := value }
  (h ++ [newObj],
    { ds with rollingStock :=
        ds.rollingStock.enum.map (fun p => if p.1 = idx then h.length
          else p.2) })

/-- `updateStockRange(idx, rIdx, which, value)`: like `updateStock` but the
fresh object carries the ranges array with position `rIdx` rebuilt as
`[which === 0 ? v : r[0], which === 1 ? v : r[1]]`.  The source computes
`v = parseInt(value || "0", 10)`; the verified claims stay inside the data
model's integer ranges, so the parsed integer is taken directly. -/
def updateStockRange (h : EntryHeap) (ds : Datasets) (idx rIdx : Nat)
    (which : Nat) (v : Int) : EntryHeap × Datasets :=
  let oldObj := h.getD (ds.rollingStock.getD idx 0) default
  let ranges2 := oldObj.ranges.enum.map (fun p =>
    if p.1 = rIdx then
      ((if which = 0 then v else p.2.1), (if which = 1 then v else p.2.2))
    else p.2)
  let newObj := { oldObj with ranges := ranges2 }
  (h ++ [newObj],
    { ds with rollingStock :=
        ds.rollingStock.enum.map (fun p => if p.1 = idx then h.length
          else p.2) })

/-- `addRange(idx)`: `const next = {...datasets};
next.rollingStock[idx].ranges = [...next.rollingStock[idx].ranges, [0, 0]]`
— the shallow copy shares the reference array and the entry objects, so the
assignment writes through the shared reference: the heap cell is updated in
place and the snapshot keeps the same references. -/
def addRange (h : EntryHeap) (ds : Datasets) (idx : Nat) :
    EntryHeap × Datasets :=
  let ref := ds.rollingStock.getD idx 0
  let obj := h.getD ref default
  (h.set ref { obj with ranges := obj.ranges ++ [(0, 0)] }, ds)

/-- `removeStock(idx)`: filter by position into a fresh array. -/
def removeStock (h : EntryHeap) (ds : Datasets) (idx : Nat) :
    EntryHeap × Datasets :=
  (h, { ds with rollingStock := removeAt ds.rollingStock idx })

/-- `addLine()`: append the fixed new line object. -/
def addLine (h : EntryHeap) (ds : Datasets) : EntryHeap × Datasets :=
  (h, { ds with lines := ds.lines ++
    [⟨['X'], ['X'], ['B'], ['#', '0', '0', '0', '0', '0', '0'],
      (['T', 'e', 'r', 'm', 'i', 'n', 'u', 's', ' ', 'A'],
        ['T', 'e', 'r', 'm', 'i', 'n', 'u', 's', ' ', 'B'])⟩] })

/-- A field update for `updateLine` (the source passes the field name and
value; `terminals` receives a rebuilt pair). -/
inductive LineFieldVal where
  | id (s : List Char)
  | label (s : List Char)
  | division (s : List Char)
  | color (s : List Char)
  | terminals (p : List Char × List Char)
deriving DecidableEq, Repr

def applyLineField (l : LineObj) : LineFieldVal → LineObj
  | .id s => { l with id := s }
  | .label s => { l with label := s }
  | .division s => { l with division := s }
  | .color s => { l with color := s }
  | .terminals p => { l with terminals := p }

/-- `updateLine(idx, field, value)`: map over lines, rebuilding position
`idx` as `{...l, [field]: value}`. -/
def updateLine (h : EntryHeap) (ds : Datasets) (idx : Nat)
    (fv : LineFieldVal) : EntryHeap × Datasets :=
  (h, { ds with lines := ds.lines.enum.map (fun p =>
    if p.1 = idx then applyLineField p.2 fv else p.2) })

/-- `removeLine(idx)`: filter by position into a fresh array. -/
def removeLine (h : EntryHeap) (ds : Datasets) (idx : Nat) :
    EntryHeap × Datasets :=
  (h, { ds with lines := removeAt ds.lines idx })

theorem derefStock_append {h : EntryHeap} {ds : Datasets}
    (hwf : stockRefsWF h ds = true) (o : EntryObj) :
    derefStock (h ++ [o]) ds = derefStock h ds := by
  unfold derefStock
  rw [Prod.mk.injEq]
  refine ⟨?_, rfl⟩
  refine List.map_congr_left ?_
  intro r hr
  have hlt : r < h.length := by
    have := List.all_eq_true.mp hwf r hr
    simpa using this
  rw [List.getD_append _ _ _ _ hlt]

/-- **C3 (counterexample).** `addRange` mutates the caller's snapshot: the
shallow copy `{...datasets}` shares the entry objects, and
`next.rollingStock[idx].ranges = [...]` writes through the shared
reference, so the old snapshot observes the appended `[0, 0]` range. -/
theorem claim_C3_counterexample :
    derefStock
        (addRange [⟨['R', '6', '2'], ['A'], [((1301 : Int), (1390 : Int))]⟩]
          ⟨[0], []⟩ 0).1 ⟨[0], []⟩ ≠
      derefStock [⟨['R', '6', '2'], ['A'], [((1301 : Int), (1390 : Int))]⟩]
        ⟨[0], []⟩ := by
  decide

/-- **C3 (amended).** Every dataset edit operation except `addRange`
(`addStock`, `updateStock`, `updateStockRange`, `removeStock`, `addLine`,
`updateLine`, `removeLine`) produces its new snapshot by structural
copy-with-replacement and leaves the caller's existing snapshot — its
`rollingStock` and `lines` sequences and every entry within them —
structurally unchanged.  `addRange` instead mutates the shared entry object
in place (see the counterexample). -/
theorem claim_C3_amended (h : EntryHeap) (ds : Datasets)
    (hwf : stockRefsWF h ds = true) (idx rIdx which : Nat) (v : Int)
    (field : StockField) (fv : LineFieldVal) (value : List Char) :
    derefStock (addStock h ds).1 ds = derefStock h ds ∧
    derefStock (updateStock h ds idx field value).1 ds = derefStock h ds ∧
    derefStock (updateStockRange h ds idx rIdx which v).1 ds =
      derefStock h ds ∧
    derefStock (removeStock h ds idx).1 ds = derefStock h ds ∧
    derefStock (addLine h ds).1 ds = derefStock h ds ∧
    derefStock (updateLine h ds idx fv).1 ds = derefStock h ds ∧
    derefStock (removeLine h ds idx).1 ds = derefStock h ds :=
  ⟨derefStock_append hwf _, derefStock_append hwf _, derefStock_append hwf _,
    rfl, rfl, rfl, rfl⟩

theorem claim_C3_amended_witness :
    stockRefsWF [⟨['R', '6', '2'], ['A'], [((1301 : Int), (1390 : Int))]⟩]
        ⟨[0], []⟩ = true ∧
      derefStock (addStock
          [⟨['R', '6', '2'], ['A'], [((1301 : Int), (1390 : Int))]⟩]
          ⟨[0], []⟩).1 ⟨[0], []⟩ =
        derefStock [⟨['R', '6', '2'], ['A'], [((1301 : Int), (1390 : Int))]⟩]
          ⟨[0], []⟩ ∧
      derefStock (updateLine
          [⟨['R', '6', '2'], ['A'], [((1301 : Int), (1390 : Int))]⟩]
          ⟨[0], []⟩ 0 (.id ['Y'])).1 ⟨[0], []⟩ =
        derefStock [⟨['R', '6', '2'], ['A'], [((1301 : Int), (1390 : Int))]⟩]
          ⟨[0], []⟩ :=
  ⟨by decide,
    (claim_C3_amended _ _ (by decide) 0 0 0 5 .model (.id ['Y']) ['Z']).1,
    (claim_C3_amended _ _ (by decide) 0 0 0 5 .model (.id ['Y'])
      ['Z']).2.2.2.2.2.1⟩
